import Mathlib

/-! Shallow embedding of the go-uci data model and section addressing engine
(source file `types.go`).  Go strings are modelled as `List Char`; every
delimiter character the code inspects is ASCII, so character positions
coincide with the source's byte positions on all inputs the claims range
over.  Go heap identity of `*Section` pointers is modelled by an explicit
allocation id field `ptr`: distinct allocations carry distinct ids, and the
source's pointer comparison `sec == s` becomes an id comparison.  A Go
function that can panic is modelled with an `Option` result, `none` standing
for the panic. -/

/-- Character list of a string literal. -/
def strL (s : String) : List Char := s.data

/-- The single-quote character (ASCII 39), used by the serializer. -/
def squo : Char := Char.ofNat 39

/-- Numeric value of a decimal digit string (no sign), most significant first. -/
def digitsVal (ds : List Char) : Nat :=
  ds.foldl (fun a c => 10 * a + (c.toNat - 48)) 0

/-- Whether a string is a non-empty run of decimal digits. -/
def digitsValOk (ds : List Char) : Bool :=
  !ds.isEmpty && ds.all Char.isDigit

/-- The bound 2^63 of Go's 64-bit `int`, used by `strconv.Atoi`'s range check. -/
def two63 : Int := 2 ^ 63

/-- Result of strconv's final range check: value out of the 64-bit signed
range is clamped and flagged as an error (`false`). -/
def signedResult (neg : Bool) (n : Nat) : Int × Bool :=
  if neg then
    if (n : Int) ≤ two63 then (-(n : Int), true) else (-two63, false)
  else
    if (n : Int) < two63 then ((n : Int), true) else (two63 - 1, false)

/-- Model of Go's `strconv.Atoi`: optional single sign, then decimal digits,
with a signed 64-bit range check.  The Bool is `true` exactly when Go returns
a nil error; the Int is the accompanying value (0 on syntax errors, the
clamped extremum on range errors, as strconv documents).  strconv reports a
range error before seeing a later non-digit; this model checks digits first,
which is observationally equal in every use inside `types.go` (the error
classes coincide and the value is only consumed where the digits check
already holds). -/
def atoiGo (s : List Char) : Int × Bool :=
  match s with
  | [] => (0, false)
  | c :: rest =>
    if c = '-' then
      if digitsValOk rest then signedResult true (digitsVal rest) else (0, false)
    else if c = '+' then
      if digitsValOk rest then signedResult false (digitsVal rest) else (0, false)
    else
      if digitsValOk (c :: rest) then signedResult false (digitsVal (c :: rest)) else (0, false)

/-- Fuelled core of the decimal printer (fuel strictly exceeds the number). -/
def natDigitsCore (fuel n : Nat) (acc : List Char) : List Char :=
  match fuel with
  | 0 => acc
  | fuel' + 1 =>
    if n < 10 then Nat.digitChar n :: acc
    else natDigitsCore fuel' (n / 10) (Nat.digitChar (n % 10) :: acc)

/-- Decimal digits of a natural number, most significant first. -/
def natDigits (n : Nat) : List Char := natDigitsCore (n + 1) n []

/-- Model of Go's `strconv.Itoa` on 64-bit ints. -/
def itoa (i : Int) : List Char :=
  if i < 0 then '-' :: natDigits (-i).toNat else natDigits i.toNat

/-- Modelled from the spec: the repository defines `OptionType` with the two
constants `TypeOption` (single scalar value) and `TypeList` (ordered list of
values) outside the provided source file. -/
inductive OptionType
  | TypeOption
  | TypeList
deriving DecidableEq

/-- The source's `Option` type (named `UOption` here to avoid the clash with
Lean's `Option`): a named, typed list of string values. -/
structure UOption where
  Name : List Char
  Values : List (List Char)
  Typ : OptionType
deriving DecidableEq

/-- The source's `Section`: type (field `Typ`, the source's `Type`), optional
name, ordered options.  `ptr` is the allocation id modelling Go pointer
identity. -/
structure Section where
  ptr : Nat
  Name : List Char
  Typ : List Char
  Options : List UOption
deriving DecidableEq

/-- The source's `Config`: a named ordered sequence of sections. -/
structure Config where
  Name : List Char
  Sections : List Section
deriving DecidableEq

/-- Error values of `types.go` (the six static selector errors, the wrapped
Atoi error class, and the out-of-bounds error). -/
inductive UciErr
  | implausibleSectionSelector
  | mustStartWithAt
  | multipleAtSigns
  | multipleOpenBrackets
  | multipleCloseBrackets
  | invalidSectionSelector
  | indexMustBeNumeric
  | unnamedIndexOutOfBounds
deriving DecidableEq

/-- Go slice `xs[a:b]` on strings. -/
def goSlice (xs : List Char) (a b : Nat) : List Char :=
  (xs.drop a).take (b - a)

/-- The character-scanning loop of `unmangleSectionName`: position `i`,
last-seen open-bracket position `bra` (0 = none yet), fixed final position
`ket`.  Returns the final `bra` or the first error, with the source's check
order per character. -/
def scanLoop : List Char → Nat → Nat → Nat → Except UciErr Nat
  | [], _, bra, _ => .ok bra
  | r :: rest, i, bra, ket =>
    if i ≠ 0 ∧ r = '@' then .error .multipleAtSigns
    else if r = '[' ∧ bra > 0 then .error .multipleOpenBrackets
    else if r = ']' ∧ i ≠ ket then .error .multipleCloseBrackets
    else if r = '[' then scanLoop rest (i + 1) i ket
    else scanLoop rest (i + 1) bra ket

/-- The source's `unmangleSectionName`, kept as the Go triple of named return
values `(typ, index, err)`: on early errors the zero values are returned, and
on an Atoi failure the partially-assigned `typ` and Atoi's value are returned
alongside the wrapped error, exactly as the Go code does. -/
def unmangleSectionName (name : List Char) : List Char × Int × Option UciErr :=
  if name.length < 5 then ([], 0, some .implausibleSectionSelector)
  else if name.head? ≠ some '@' then ([], 0, some .mustStartWithAt)
  else
    match scanLoop name 0 0 (name.length - 1) with
    | .error e => ([], 0, some e)
    | .ok bra =>
      if bra = 0 ∨ bra ≥ name.length - 1 then ([], 0, some .invalidSectionSelector)
      else
        let typ := goSlice name 1 bra
        let p := atoiGo (goSlice name (bra + 1) (name.length - 1))
        (typ, p.1, if p.2 then none else some .indexMustBeNumeric)

/-- Number of sections of a given type (the source's `Config.count` loop). -/
def countGo : List Section → List Char → Nat
  | [], _ => 0
  | sec :: rest, typ => (if sec.Typ = typ then 1 else 0) + countGo rest typ

/-- The source's `Config.count`. -/
def Config.count (c : Config) (typ : List Char) : Nat :=
  countGo c.Sections typ

/-- The scan of `getUnnamed` over the sections: running counter `n` of
sections of the wanted type, returning the one where the counter meets the
resolved index. -/
def findUnnamed (typ : List Char) (idx : Int) : List Section → Int → Option Section
  | [], _ => none
  | sec :: rest, n =>
    if sec.Typ = typ then
      if idx = n then some sec else findUnnamed typ idx rest (n + 1)
    else findUnnamed typ idx rest n

/-- The source's `Config.getUnnamed`: parse the selector, range-check the
index against the count of the type (negative indices count from the end),
then scan.  `.ok none` is the source's `(nil, nil)` return. -/
def Config.getUnnamed (c : Config) (name : List Char) : Except UciErr (Option Section) :=
  match unmangleSectionName name with
  | (_, _, some e) => .error e
  | (typ, idx, none) =>
    let count := c.count typ
    if -(count : Int) > idx ∨ idx ≥ (count : Int) then .error .unnamedIndexOutOfBounds
    else
      let idx' := if idx < 0 then idx + count else idx
      .ok (findUnnamed typ idx' c.Sections 0)

/-- The source's `Config.getNamed`: first section with the literal name. -/
def Config.getNamed (c : Config) (name : List Char) : Option Section :=
  c.Sections.find? (fun sec => sec.Name == name)

/-- The source's `Config.Get`: selector lookup for names starting with `@`
(discarding any error), literal lookup otherwise. -/
def Config.Get (c : Config) (name : List Char) : Option Section :=
  if name.head? = some '@' then
    match c.getUnnamed name with
    | .ok s => s
    | .error _ => none
  else c.getNamed name

/-- The source's `Config.Add`. -/
def Config.Add (c : Config) (s : Section) : Config :=
  { c with Sections := c.Sections ++ [s] }

/-- The source's `Config.index`: position of `s` among sections of its type,
located by pointer identity; `none` models the `panic("not reached")` branch
when the pointer is absent from the config. -/
def indexGo : List Section → Section → Nat → Option Nat
  | [], _, _ => none
  | sec :: rest, s, i =>
    if sec.ptr = s.ptr then some i
    else indexGo rest s (if sec.Typ = s.Typ then i + 1 else i)

/-- The source's `Config.index` entry point. -/
def Config.index (c : Config) (s : Section) : Option Nat :=
  indexGo c.Sections s 0

/-- The source's `Config.sectionName`: the stored name if non-empty, else the
synthetic `@type[index]` form; `none` propagates the `index` panic. -/
def Config.sectionName (c : Config) (s : Section) : Option (List Char) :=
  if s.Name ≠ [] then some s.Name
  else (c.index s).map (fun i => strL "@" ++ s.Typ ++ strL "[" ++ itoa i ++ strL "]")

/-- The source's `Option.AddValue`. -/
def UOption.AddValue (o : UOption) (v : List Char) : UOption :=
  { o with Values := o.Values ++ [v] }

/-- The source's `Option.MergeValues`: the `have` set is built once from the
pre-call values, then each incoming value not in that set is appended. -/
def UOption.MergeValues (o : UOption) (vs : List (List Char)) : UOption :=
  let have_ := o.Values
  vs.foldl (fun acc v => if v ∈ have_ then acc else acc.AddValue v) o

/-- The loop of `Section.Merge`: merge into the first option with the same
name, else append. -/
def mergeOptionList : List UOption → UOption → List UOption
  | [], o => [o]
  | opt :: rest, o =>
    if opt.Name = o.Name then opt.MergeValues o.Values :: rest
    else opt :: mergeOptionList rest o

/-- The source's `Section.Merge`. -/
def Section.Merge (s : Section) (o : UOption) : Section :=
  { s with Options := mergeOptionList s.Options o }

/-- The option-removal loop of `Section.Del`. -/
def delOption : List UOption → List Char → Option (List UOption)
  | [], _ => none
  | o :: rest, name =>
    if o.Name = name then some rest
    else (delOption rest name).map (o :: ·)

/-- The source's `Section.Del`: remove the first option with the name,
reporting whether a removal occurred. -/
def Section.Del (s : Section) (name : List Char) : Section × Bool :=
  match delOption s.Options name with
  | some opts => ({ s with Options := opts }, true)
  | none => (s, false)

/-- The matching loop of `Config.Merge`: compare the incoming key against
each existing section's key (computed by `sectionName`, whose panic — never
reachable for sections stored in the config — propagates as `none`);
`some none` means no match, `some (some sec)` the first match. -/
def mergeFindLoop (c : Config) (sname : List Char) : List Section → Option (Option Section)
  | [] => some none
  | sec :: rest =>
    match c.sectionName sec with
    | none => none
    | some cname =>
      if sname = cname then some (some sec) else mergeFindLoop c sname rest

/-- The source's `Config.Merge`.  With an empty config the loop body never
runs and the section is appended; otherwise the incoming key is computed
first (panicking — `none` — for an unnamed section whose pointer is not in
the config), then matched; on a match every incoming option is merged into
the matching section via `Section.Merge` (the heap mutation updates every
alias of that pointer) and that section is returned. -/
def Config.Merge (c : Config) (s : Section) : Option (Config × Section) :=
  match c.Sections with
  | [] => some (c.Add s, s)
  | _ :: _ =>
    match c.sectionName s with
    | none => none
    | some sname =>
      match mergeFindLoop c sname c.Sections with
      | none => none
      | some none => some (c.Add s, s)
      | some (some sec) =>
        let sec' := s.Options.foldl Section.Merge sec
        some ({ c with Sections := c.Sections.map (fun t => if t.ptr = sec.ptr then sec' else t) }, sec')

/-- Characters that carry special meaning in Go's RE2 regular-expression
syntax (including the brackets and braces).  A section type containing none
of these is spliced into the source's placeholder pattern as a pure literal
and the resulting pattern always compiles. -/
def regexSafeChar (c : Char) : Bool :=
  !(c == '\\' || c == '.' || c == '+' || c == '*' || c == '?' || c == '(' ||
    c == ')' || c == '|' || c == '[' || c == ']' || c == Char.ofNat 123 ||
    c == Char.ofNat 125 || c == '^' || c == '$')

/-- A string that can be spliced into a regular expression as a literal:
every character free of regex metacharacters. -/
def regexSafe (t : List Char) : Bool := t.all regexSafeChar

/-- Modelled from the source's `IsPlaceholderName`, which matches `name`
against the regex `^@<secType>\[(\d+)\]$` built by splicing in the raw
section type: the name is `@`, the type, and a non-empty bracketed run of
digits.  This string-shape reading is exact precisely when the spliced type
is `regexSafe`: then the pattern compiles and every type character matches
literally.  For other types Go behaves differently (metacharacters keep
their regex meaning, and `regexp.MustCompile` panics on an invalid
pattern), so every theorem about an operation that calls this function on
stored section types carries a `regexSafe` hypothesis on those types. -/
def IsPlaceholderName (name secType : List Char) : Bool :=
  match name with
  | [] => false
  | c :: rest =>
    c == '@' && rest.take secType.length == secType &&
      (match rest.drop secType.length with
       | [] => false
       | d :: r =>
         d == '[' && r.getLast? == some ']' && !r.dropLast.isEmpty &&
           r.dropLast.all Char.isDigit)

/-- The source's `Num2PlaceholderSection`: `"@" + type + "[" + Itoa(num) + "]"`. -/
def Num2PlaceholderSection (sectionType : List Char) (num : Int) : List Char :=
  strL "@" ++ sectionType ++ strL "[" ++ itoa num ++ strL "]"

/-- The deletion loop of `Config.Del`: per-type counters (a total map with
default 0, as the Go map reads), break on a counter hit of the parsed index
or on a literal name match, then splice the element out; no break leaves the
config unchanged. -/
def delGo (name : List Char) (cnt : List Char → Nat) : List Section → List Section
  | [] => []
  | sec :: rest =>
    if IsPlaceholderName name sec.Typ then
      if (unmangleSectionName name).2.1 = (cnt sec.Typ : Int) then rest
      else if sec.Name = name then rest
      else sec :: delGo name (fun t => if t = sec.Typ then cnt t + 1 else cnt t) rest
    else if sec.Name = name then rest
    else sec :: delGo name cnt rest

/-- The source's `Config.Del`. -/
def Config.Del (c : Config) (name : List Char) : Config :=
  { c with Sections := delGo name (fun _ => 0) c.Sections }

/-- Rendering of one option by `Config.WriteTo`: a `TypeOption` emits one
`option` line from `Values[0]` (`none` models the index-out-of-range panic on
an empty value list), a `TypeList` one `list` line per value. -/
def renderOption (o : UOption) : Option (List Char) :=
  match o.Typ with
  | .TypeOption =>
    match o.Values with
    | [] => none
    | v :: _ => some (strL "\toption " ++ o.Name ++ (' ' :: squo :: v) ++ [squo, '\n'])
  | .TypeList =>
    some ((o.Values.map (fun v => strL "\tlist " ++ o.Name ++ (' ' :: squo :: v) ++ [squo, '\n'])).flatten)

/-- Rendering of a section's options, in order. -/
def renderOptions : List UOption → Option (List Char)
  | [] => some []
  | o :: rest =>
    match renderOption o, renderOptions rest with
    | some a, some b => some (a ++ b)
    | _, _ => none

/-- Rendering of one section by `Config.WriteTo`: a leading newline, the
`config` header (bare when the name is empty or is a placeholder pattern for
the section's type), then the option lines. -/
def renderSection (sec : Section) : Option (List Char) :=
  let header :=
    if sec.Name = [] ∨ IsPlaceholderName sec.Name sec.Typ then
      strL "\nconfig " ++ sec.Typ ++ strL "\n"
    else
      strL "\nconfig " ++ sec.Typ ++ (' ' :: squo :: sec.Name) ++ [squo, '\n']
  (renderOptions sec.Options).map (header ++ ·)

/-- Rendering of all sections, in order. -/
def renderSections : List Section → Option (List Char)
  | [] => some []
  | sec :: rest =>
    match renderSection sec, renderSections rest with
    | some a, some b => some (a ++ b)
    | _, _ => none

/-- The source's `Config.WriteTo` as the produced text (the byte sink is a
pure accumulator; the final `buf.WriteByte('\n')` appends the trailing blank
line). -/
def Config.WriteTo (c : Config) : Option (List Char) :=
  (renderSections c.Sections).map (fun out => out ++ ['\n'])

/-! Characterization of the selector scan. -/

/-- Admissibility of a character run for the scan at positions `i, i+1, ...`
when no further `[` may be recorded: no `@`, no `[`, and `]` only at the
final position `ket`. -/
def okSegB : List Char → Nat → Nat → Bool
  | [], _, _ => true
  | c :: rest, i, ket =>
    decide (c ≠ '@') && decide (c ≠ '[') && (decide (c ≠ ']') || decide (i = ket)) &&
      okSegB rest (i + 1) ket

/-- Split a string at its first `[`. -/
def splitAtBracket : List Char → Option (List Char × List Char)
  | [] => none
  | c :: rest =>
    if c = '[' then some ([], rest)
    else (splitAtBracket rest).map (fun p => (c :: p.1, p.2))

/-- Grammar checker stated from the spec's selector grammar, amended to what
the code accepts: a string `"@" TYPE "[" INDEX LAST` of length at least 5,
where `TYPE` is zero or more characters excluding `@ [ ]`, `INDEX` is a
base-10 optionally-signed integer accepted by Atoi (64-bit range), and `LAST`
is one arbitrary final character other than `@` and `[`. -/
def amendedParse (name : List Char) : Option (List Char × Int) :=
  if name.length < 5 then none
  else if name.head? ≠ some '@' then none
  else
    match splitAtBracket name.tail with
    | none => none
    | some (typ, after) =>
      if ∀ c ∈ typ, c ≠ '@' ∧ c ≠ '[' ∧ c ≠ ']' then
        match after.getLast? with
        | none => none
        | some last =>
          if last ≠ '@' ∧ last ≠ '[' then
            if (atoiGo after.dropLast).2 = true then some (typ, (atoiGo after.dropLast).1)
            else none
          else none
      else none

/-- Well-formed selector type: non-empty and free of the delimiters `@ [ ]`. -/
def validTypeB (T : List Char) : Bool :=
  !T.isEmpty && T.all (fun c => decide (c ≠ '@') && decide (c ≠ '[') && decide (c ≠ ']'))

/-- Concrete two-section config used by witnesses. -/
def cW1 : Config :=
  ⟨strL "w", [⟨1, [], strL "t", []⟩, ⟨2, [], strL "t", []⟩]⟩

/-- Config used by the C2 witness: one named section `a` of type `t`. -/
def cW2 : Config := ⟨strL "m", [⟨1, strL "a", strL "t", []⟩]⟩

/-- Incoming section for the C2 witness: a distinct allocation, also named
`a`, carrying one option. -/
def sW2 : Section := ⟨2, strL "a", strL "t", [⟨strL "o", [strL "v"], .TypeOption⟩]⟩

/-- Config used by the C5 witness. -/
def cW5 : Config := ⟨strL "n", [⟨3, strL "x", strL "u", []⟩]⟩

/-- Section used by the C5 witness. -/
def sW5 : Section := ⟨4, strL "x", strL "u", []⟩

/-- Removal of the `k`-th (0-based, in declaration order) section of the
given type, leaving every other section in place — the deletion behavior the
claim describes. -/
def eraseNthOfType (typ : List Char) : Nat → List Section → List Section
  | _, [] => []
  | k, sec :: rest =>
    if sec.Typ = typ then
      if k = 0 then rest else sec :: eraseNthOfType typ (k - 1) rest
    else sec :: eraseNthOfType typ k rest

/-- Config for the C6 counterexample: one unnamed section of type `t`. -/
def cX6 : Config := ⟨strL "h", [⟨9, [], strL "t", []⟩]⟩

/-- Config for the C6 witness: two unnamed sections of type `v`. -/
def cW6 : Config := ⟨strL "k", [⟨11, [], strL "v", []⟩, ⟨12, [], strL "v", []⟩]⟩

/-- Config for the C8 counterexample: a section of type `u` literally named
`@t[1]` followed by two unnamed sections of type `t`. -/
def cX8 : Config :=
  ⟨strL "g", [⟨1, strL "@t[1]", strL "u", []⟩, ⟨2, [], strL "t", []⟩, ⟨3, [], strL "t", []⟩]⟩

/-- Config for the C8 witness: two unnamed `r`-sections around an `s`
section. -/
def cW8 : Config :=
  ⟨strL "q", [⟨21, [], strL "r", []⟩, ⟨22, [], strL "s", []⟩, ⟨23, [], strL "r", []⟩]⟩

/-- Stated from the claim: the lines contributed by one option — one
`option` line using only the first value for a `TypeOption`, one `list` line
per value (in stored order) for a `TypeList`. -/
def specOptionLines (o : UOption) : List Char :=
  match o.Typ with
  | .TypeOption =>
    strL "\toption " ++ o.Name ++ (' ' :: squo :: o.Values.headD []) ++ [squo, '\n']
  | .TypeList =>
    (o.Values.map (fun v => strL "\tlist " ++ o.Name ++ (' ' :: squo :: v) ++ [squo, '\n'])).flatten

/-- Stated from the claim: one section block — a preceding blank line, then
the header (`config <type>` bare when the name is empty or is a recognized
placeholder pattern for the type, else `config <type> '<name>'`), then the
option lines. -/
def specBlock (sec : Section) : List Char :=
  (if sec.Name = [] ∨ IsPlaceholderName sec.Name sec.Typ then
    strL "\nconfig " ++ sec.Typ ++ strL "\n"
  else
    strL "\nconfig " ++ sec.Typ ++ (' ' :: squo :: sec.Name) ++ [squo, '\n'])
  ++ (sec.Options.map specOptionLines).flatten

/-- Stated from the claim: the whole rendering — every section block in
declaration order, then a trailing blank line. -/
def specRender (c : Config) : List Char :=
  (c.Sections.map specBlock).flatten ++ ['\n']

/-- Config for the C9 witness: a named section and a placeholder-named
section with one option of each kind. -/
def cW9 : Config :=
  ⟨strL "w9",
    [⟨31, strL "lan", strL "iface", [⟨strL "ip", [strL "10.0.0.1"], .TypeOption⟩]⟩,
     ⟨32, strL "@rule[0]", strL "rule", [⟨strL "ports", [strL "80", strL "443"], .TypeList⟩]⟩]⟩

/-- Config for the C9 counterexample: one section holding a `TypeOption`
option with an empty value list. -/
def cX9 : Config :=
  ⟨strL "x9", [⟨41, strL "s1", strL "ty", [⟨strL "o1", [], .TypeOption⟩]⟩]⟩

/-! Lemmas about the decimal printer and `atoiGo`. -/

theorem digitChar_isDigit {d : Nat} (h : d < 10) : (Nat.digitChar d).isDigit = true := by
  interval_cases d <;> decide

theorem digitChar_val {d : Nat} (h : d < 10) : (Nat.digitChar d).toNat - 48 = d := by
  interval_cases d <;> decide

theorem isDigit_ne_minus {c : Char} (h : c.isDigit = true) : c ≠ '-' := by
  intro hc; subst hc; revert h; decide

theorem isDigit_ne_plus {c : Char} (h : c.isDigit = true) : c ≠ '+' := by
  intro hc; subst hc; revert h; decide

theorem natDigitsCore_append (n : Nat) :
    ∀ fuel acc, n < fuel → natDigitsCore fuel n acc = natDigits n ++ acc := by
  induction n using Nat.strong_induction_on with
  | _ n ih =>
    intro fuel acc h
    match fuel with
    | fuel' + 1 =>
      by_cases h10 : n < 10
      · simp [natDigitsCore, natDigits, h10]
      · have hdiv : n / 10 < n := Nat.div_lt_self (by omega) (by omega)
        have h1 : n / 10 < fuel' := by omega
        have h2 : n / 10 < n + 1 := by omega
        rw [natDigitsCore]
        simp only [h10, if_false]
        rw [ih (n / 10) hdiv fuel' _ h1]
        conv_rhs => rw [natDigits, natDigitsCore]
        simp only [h10, if_false]
        rw [ih (n / 10) hdiv n _ hdiv]
        simp

theorem natDigits_lt10 {n : Nat} (h : n < 10) : natDigits n = [Nat.digitChar n] := by
  simp [natDigits, natDigitsCore, h]

theorem natDigits_ge10 {n : Nat} (h : 10 ≤ n) :
    natDigits n = natDigits (n / 10) ++ [Nat.digitChar (n % 10)] := by
  have h10 : ¬ n < 10 := by omega
  have hdiv : n / 10 < n := Nat.div_lt_self (by omega) (by omega)
  conv_lhs => rw [natDigits, natDigitsCore]
  simp only [h10, if_false]
  rw [natDigitsCore_append (n / 10) n _ hdiv]

theorem digitsVal_append_last (xs : List Char) (c : Char) :
    digitsVal (xs ++ [c]) = 10 * digitsVal xs + (c.toNat - 48) := by
  simp [digitsVal, List.foldl_append]

theorem digitsVal_natDigits (n : Nat) : digitsVal (natDigits n) = n := by
  induction n using Nat.strong_induction_on with
  | _ n ih =>
    by_cases h10 : n < 10
    · rw [natDigits_lt10 h10]
      simp [digitsVal, digitChar_val h10]
    · have hdiv : n / 10 < n := Nat.div_lt_self (by omega) (by omega)
      rw [natDigits_ge10 (by omega), digitsVal_append_last, ih _ hdiv,
        digitChar_val (Nat.mod_lt n (by omega))]
      omega

theorem natDigits_all_isDigit (n : Nat) : ∀ c ∈ natDigits n, c.isDigit = true := by
  induction n using Nat.strong_induction_on with
  | _ n ih =>
    by_cases h10 : n < 10
    · rw [natDigits_lt10 h10]
      intro c hc
      simp at hc
      subst hc
      exact digitChar_isDigit h10
    · have hdiv : n / 10 < n := Nat.div_lt_self (by omega) (by omega)
      rw [natDigits_ge10 (by omega)]
      intro c hc
      rcases List.mem_append.1 hc with h | h
      · exact ih _ hdiv c h
      · simp at h
        subst h
        exact digitChar_isDigit (Nat.mod_lt n (by omega))

theorem natDigits_ne_nil (n : Nat) : natDigits n ≠ [] := by
  by_cases h10 : n < 10
  · rw [natDigits_lt10 h10]; simp
  · rw [natDigits_ge10 (by omega)]; simp

theorem digitsValOk_natDigits (n : Nat) : digitsValOk (natDigits n) = true := by
  have h1 := natDigits_ne_nil n
  have h2 := natDigits_all_isDigit n
  simp [digitsValOk, List.isEmpty_iff, h1, List.all_eq_true]
  intro c hc
  exact h2 c hc

theorem atoiGo_itoa {i : Int} (h1 : -two63 ≤ i) (h2 : i < two63) :
    atoiGo (itoa i) = (i, true) := by
  by_cases hneg : i < 0
  · have : itoa i = '-' :: natDigits (-i).toNat := by simp [itoa, hneg]
    rw [this]
    have hok := digitsValOk_natDigits (-i).toNat
    simp only [atoiGo, if_pos rfl, hok, if_pos rfl, digitsVal_natDigits, signedResult]
    have hcast : ((( -i).toNat : Int)) = -i := Int.toNat_of_nonneg (by omega)
    rw [hcast]
    have : (-i) ≤ two63 := by omega
    simp [this]
  · push_neg at hneg
    have hform : itoa i = natDigits i.toNat := by simp [itoa]; omega
    obtain ⟨c, cs, hcons⟩ : ∃ c cs, natDigits i.toNat = c :: cs := by
      cases hnd : natDigits i.toNat with
      | nil => exact absurd hnd (natDigits_ne_nil _)
      | cons c cs => exact ⟨c, cs, rfl⟩
    have hcd : c.isDigit = true := natDigits_all_isDigit i.toNat c (by rw [hcons]; simp)
    rw [hform, hcons]
    have hc1 : ¬ c = '-' := isDigit_ne_minus hcd
    have hc2 : ¬ c = '+' := isDigit_ne_plus hcd
    have hok : digitsValOk (c :: cs) = true := by rw [← hcons]; exact digitsValOk_natDigits _
    simp only [atoiGo, hc1, if_false, hc2, hok, if_pos rfl, signedResult]
    have hdv : digitsVal (c :: cs) = i.toNat := by rw [← hcons]; exact digitsVal_natDigits _
    rw [hdv]
    have hcast : ((i.toNat : Int)) = i := Int.toNat_of_nonneg hneg
    rw [hcast]
    simp [h2]

theorem okSegB_cons {c : Char} {rest : List Char} {i ket : Nat} :
    okSegB (c :: rest) i ket = true ↔
      (c ≠ '@' ∧ c ≠ '[' ∧ (c = ']' → i = ket) ∧ okSegB rest (i + 1) ket = true) := by
  simp [okSegB]
  tauto

theorem okSegB_append (xs ys : List Char) (ket : Nat) : ∀ i,
    okSegB (xs ++ ys) i ket = true ↔
      (okSegB xs i ket = true ∧ okSegB ys (i + xs.length) ket = true) := by
  induction xs with
  | nil => intro i; simp [okSegB]
  | cons c rest ih =>
    intro i
    simp only [List.cons_append, okSegB_cons, ih (i + 1), List.length_cons]
    constructor
    · rintro ⟨h1, h2, h3, h4, h5⟩
      refine ⟨⟨h1, h2, h3, h4⟩, ?_⟩
      have : i + (rest.length + 1) = i + 1 + rest.length := by omega
      rw [this]; exact h5
    · rintro ⟨⟨h1, h2, h3, h4⟩, h5⟩
      refine ⟨h1, h2, h3, h4, ?_⟩
      have : i + 1 + rest.length = i + (rest.length + 1) := by omega
      rw [this]; exact h5

theorem okSegB_of_inert {cs : List Char} (h : ∀ c ∈ cs, c ≠ '@' ∧ c ≠ '[' ∧ c ≠ ']') :
    ∀ i ket, okSegB cs i ket = true := by
  induction cs with
  | nil => intro i ket; simp [okSegB]
  | cons c rest ih =>
    intro i ket
    have hc := h c (by simp)
    rw [okSegB_cons]
    exact ⟨hc.1, hc.2.1, fun he => absurd he hc.2.2, ih (fun c hc => h c (by simp [hc])) _ _⟩

theorem okSegB_inert_of_lt {cs : List Char} {ket : Nat} : ∀ i,
    okSegB cs i ket = true → i + cs.length ≤ ket →
    ∀ c ∈ cs, c ≠ '@' ∧ c ≠ '[' ∧ c ≠ ']' := by
  induction cs with
  | nil => intro i _ _ c hc; simp at hc
  | cons c0 rest ih =>
    intro i hok hle c hc
    rw [okSegB_cons] at hok
    simp only [List.length_cons] at hle
    rcases List.mem_cons.1 hc with hc | hc
    · subst hc
      refine ⟨hok.1, hok.2.1, ?_⟩
      intro he
      have := hok.2.2.1 he
      omega
    · exact ih (i + 1) hok.2.2.2 (by omega) c hc

theorem scanLoop_step_inert {c : Char} {i ket : Nat} (rest : List Char) (bra : Nat)
    (h1 : c ≠ '@') (h2 : c ≠ '[') (h3 : c = ']' → i = ket) :
    scanLoop (c :: rest) i bra ket = scanLoop rest (i + 1) bra ket := by
  have hc1 : ¬ (i ≠ 0 ∧ c = '@') := by tauto
  have hc2 : ¬ (c = '[' ∧ bra > 0) := by tauto
  have hc3 : ¬ (c = ']' ∧ i ≠ ket) := by tauto
  simp only [scanLoop]
  rw [if_neg hc1, if_neg hc2, if_neg hc3, if_neg h2]

theorem scanLoop_step_at {i : Nat} (rest : List Char) (bra ket : Nat) (h : i ≠ 0) :
    scanLoop ('@' :: rest) i bra ket = .error .multipleAtSigns := by
  simp [scanLoop, h]

theorem scanLoop_step_open {bra : Nat} (rest : List Char) (i ket : Nat) (h : 0 < bra) :
    scanLoop ('[' :: rest) i bra ket = .error .multipleOpenBrackets := by
  simp [scanLoop, h]

theorem scanLoop_step_open0 (rest : List Char) (i ket : Nat) :
    scanLoop ('[' :: rest) i 0 ket = scanLoop rest (i + 1) i ket := by
  simp [scanLoop]

theorem scanLoop_step_close {i ket : Nat} (rest : List Char) (bra : Nat) (h : i ≠ ket) :
    scanLoop (']' :: rest) i bra ket = .error .multipleCloseBrackets := by
  simp [scanLoop, h]

theorem scanLoop_pos_ok (cs : List Char) : ∀ i bra ket b, 0 < bra → 1 ≤ i →
    (scanLoop cs i bra ket = .ok b ↔ (b = bra ∧ okSegB cs i ket = true)) := by
  induction cs with
  | nil =>
    intro i bra ket b _ _
    simp [scanLoop, okSegB, eq_comm]
  | cons c rest ih =>
    intro i bra ket b hbra hi
    by_cases h1 : c = '@'
    · subst h1
      rw [scanLoop_step_at rest bra ket (by omega)]
      simp [okSegB_cons]
    · by_cases h2 : c = '['
      · subst h2
        rw [scanLoop_step_open rest i ket hbra]
        simp [okSegB_cons]
      · by_cases h3 : c = ']'
        · subst h3
          by_cases h4 : i = ket
          · rw [scanLoop_step_inert rest bra h1 h2 (fun _ => h4),
              ih (i + 1) bra ket b hbra (by omega), okSegB_cons]
            tauto
          · rw [scanLoop_step_close rest bra h4, okSegB_cons]
            constructor
            · intro h; cases h
            · rintro ⟨_, _, _, hket, _⟩
              exact absurd (hket rfl) h4
        · rw [scanLoop_step_inert rest bra h1 h2 (fun he => absurd he h3),
            ih (i + 1) bra ket b hbra (by omega), okSegB_cons]
          tauto

theorem scanLoop_pre_complete (t : List Char) : ∀ (r : List Char) i ket, 1 ≤ i →
    okSegB t i ket = true → okSegB r (i + t.length + 1) ket = true →
    scanLoop (t ++ '[' :: r) i 0 ket = .ok (i + t.length) := by
  induction t with
  | nil =>
    intro r i ket hi _ hr
    simp only [List.nil_append, List.length_nil, Nat.add_zero] at *
    rw [scanLoop_step_open0 r i ket, scanLoop_pos_ok r (i + 1) i ket i (by omega) (by omega)]
    exact ⟨rfl, hr⟩
  | cons c t' ih =>
    intro r i ket hi ht hr
    rw [okSegB_cons] at ht
    obtain ⟨h1, h2, h3, h4⟩ := ht
    rw [List.cons_append, scanLoop_step_inert (t' ++ '[' :: r) 0 h1 h2 h3]
    have harr : i + 1 + t'.length + 1 = i + (c :: t').length + 1 := by simp; omega
    rw [ih r (i + 1) ket (by omega) h4 (by rw [harr]; exact hr)]
    have : i + 1 + t'.length = i + (c :: t').length := by simp; omega
    rw [this]

theorem scanLoop_pre_sound (cs : List Char) : ∀ i ket b, 1 ≤ i →
    scanLoop cs i 0 ket = .ok b → b ≠ 0 →
    ∃ t r, cs = t ++ '[' :: r ∧ b = i + t.length ∧ okSegB t i ket = true ∧
      okSegB r (i + t.length + 1) ket = true := by
  induction cs with
  | nil =>
    intro i ket b _ h2 h3
    simp only [scanLoop] at h2
    cases h2
    exact absurd rfl h3
  | cons c rest ih =>
    intro i ket b hi h2 h3
    by_cases hat : c = '@'
    · subst hat
      rw [scanLoop_step_at rest 0 ket (by omega)] at h2
      cases h2
    · by_cases hbr : c = '['
      · subst hbr
        rw [scanLoop_step_open0 rest i ket,
          scanLoop_pos_ok rest (i + 1) i ket b (by omega) (by omega)] at h2
        refine ⟨[], rest, by simp, by simpa using h2.1, by simp [okSegB], ?_⟩
        simpa using h2.2
      · by_cases hcl : c = ']'
        · subst hcl
          by_cases hik : i = ket
          · rw [scanLoop_step_inert rest 0 hat hbr (fun _ => hik)] at h2
            obtain ⟨t, r, hcs, hb, ht, hr⟩ := ih (i + 1) ket b (by omega) h2 h3
            refine ⟨']' :: t, r, by simp [hcs], by simp [hb]; omega, ?_, ?_⟩
            · rw [okSegB_cons]
              exact ⟨by decide, by decide, fun _ => hik, ht⟩
            · have : i + (']' :: t).length + 1 = i + 1 + t.length + 1 := by simp; omega
              rw [this]
              exact hr
          · rw [scanLoop_step_close rest 0 hik] at h2
            cases h2
        · rw [scanLoop_step_inert rest 0 hat hbr (fun he => absurd he hcl)] at h2
          obtain ⟨t, r, hcs, hb, ht, hr⟩ := ih (i + 1) ket b (by omega) h2 h3
          refine ⟨c :: t, r, by simp [hcs], by simp [hb]; omega, ?_, ?_⟩
          · rw [okSegB_cons]
            exact ⟨hat, hbr, fun he => absurd he hcl, ht⟩
          · have : i + (c :: t).length + 1 = i + 1 + t.length + 1 := by simp; omega
            rw [this]
            exact hr

theorem scanLoop_error_mem (cs : List Char) : ∀ i bra ket e,
    scanLoop cs i bra ket = .error e →
    e = .multipleAtSigns ∨ e = .multipleOpenBrackets ∨ e = .multipleCloseBrackets := by
  induction cs with
  | nil => intro i bra ket e h; simp [scanLoop] at h
  | cons c rest ih =>
    intro i bra ket e h
    simp only [scanLoop] at h
    split at h
    · cases h; tauto
    · split at h
      · cases h; tauto
      · split at h
        · cases h; tauto
        · split at h
          · exact ih _ _ _ _ h
          · exact ih _ _ _ _ h

theorem scanLoop_step_at0 (rest : List Char) (bra ket : Nat) :
    scanLoop ('@' :: rest) 0 bra ket = scanLoop rest 1 bra ket := by
  simp [scanLoop]

theorem splitAtBracket_iff (body : List Char) : ∀ t r,
    splitAtBracket body = some (t, r) ↔ (body = t ++ '[' :: r ∧ '[' ∉ t) := by
  induction body with
  | nil =>
    intro t r
    constructor
    · intro h; simp [splitAtBracket] at h
    · rintro ⟨h, _⟩
      have := congrArg List.length h
      simp at this
      omega
  | cons c rest ih =>
    intro t r
    by_cases hc : c = '['
    · subst hc
      constructor
      · intro h
        simp only [splitAtBracket, if_pos rfl, Option.some.injEq, Prod.mk.injEq] at h
        obtain ⟨rfl, rfl⟩ := h
        simp
      · rintro ⟨heq, hmem⟩
        cases t with
        | nil =>
          simp only [List.nil_append, List.cons.injEq] at heq
          simp [splitAtBracket, heq.2]
        | cons c0 t' =>
          simp only [List.cons_append, List.cons.injEq] at heq
          exact absurd (by rw [← heq.1]; exact List.mem_cons_self _ _) hmem
    · simp only [splitAtBracket, if_neg hc]
      constructor
      · intro h
        obtain ⟨⟨t', r'⟩, hsp, heq⟩ := Option.map_eq_some'.1 h
        simp only [Prod.mk.injEq] at heq
        obtain ⟨ht, hr⟩ := heq
        subst ht; subst hr
        obtain ⟨hb, hm⟩ := (ih t' r').1 hsp
        refine ⟨by simp [hb], ?_⟩
        simp only [List.mem_cons, not_or]
        exact ⟨fun he => hc he.symm, hm⟩
      · rintro ⟨heq, hmem⟩
        cases t with
        | nil =>
          simp only [List.nil_append, List.cons.injEq] at heq
          exact absurd heq.1 hc
        | cons c0 t' =>
          simp only [List.cons_append, List.cons.injEq] at heq
          obtain ⟨hc0, hrest⟩ := heq
          subst hc0
          rw [(ih t' r).2 ⟨hrest, fun hm => hmem (by simp [hm])⟩]
          simp

theorem okSegB_no_bracket {cs : List Char} : ∀ i ket, okSegB cs i ket = true → '[' ∉ cs := by
  induction cs with
  | nil => intro i ket _; simp
  | cons c rest ih =>
    intro i ket h
    rw [okSegB_cons] at h
    simp only [List.mem_cons, not_or]
    exact ⟨fun he => h.2.1 he.symm, ih (i + 1) ket h.2.2.2⟩

theorem atoiGo_ne_nil {ds : List Char} {v : Int} (h : atoiGo ds = (v, true)) : ds ≠ [] := by
  intro hnil
  subst hnil
  simp [atoiGo] at h

theorem digitsValOk_chars {ds : List Char} (h : digitsValOk ds = true) :
    ∀ c ∈ ds, c.isDigit = true := by
  simp [digitsValOk, List.all_eq_true] at h
  exact h.2

theorem atoiGo_chars {ds : List Char} {v : Int} (h : atoiGo ds = (v, true)) :
    ∀ c ∈ ds, c.isDigit = true ∨ c = '-' ∨ c = '+' := by
  match ds with
  | [] => intro c hc; simp at hc
  | c0 :: rest =>
    intro c hc
    simp only [atoiGo] at h
    by_cases h1 : c0 = '-'
    · rw [if_pos h1] at h
      rcases List.mem_cons.1 hc with hc | hc
      · subst hc; right; left; exact h1
      · by_cases hok : digitsValOk rest = true
        · exact Or.inl (digitsValOk_chars hok c hc)
        · rw [if_neg hok] at h; simp at h
    · rw [if_neg h1] at h
      by_cases h2 : c0 = '+'
      · rw [if_pos h2] at h
        rcases List.mem_cons.1 hc with hc | hc
        · subst hc; right; right; exact h2
        · by_cases hok : digitsValOk rest = true
          · exact Or.inl (digitsValOk_chars hok c hc)
          · rw [if_neg hok] at h; simp at h
      · rw [if_neg h2] at h
        by_cases hok : digitsValOk (c0 :: rest) = true
        · exact Or.inl (digitsValOk_chars hok c hc)
        · rw [if_neg hok] at h; simp at h

theorem sign_digit_inert {c : Char} (h : c.isDigit = true ∨ c = '-' ∨ c = '+') :
    c ≠ '@' ∧ c ≠ '[' ∧ c ≠ ']' := by
  rcases h with h | h | h
  · refine ⟨?_, ?_, ?_⟩ <;> intro he <;> subst he <;> revert h <;> decide
  · subst h; refine ⟨by decide, by decide, by decide⟩
  · subst h; refine ⟨by decide, by decide, by decide⟩

theorem goSlice_typ (tt r : List Char) :
    goSlice ('@' :: (tt ++ '[' :: r)) 1 (1 + tt.length) = tt := by
  show ((('@' :: (tt ++ '[' :: r)).drop 1).take (1 + tt.length - 1)) = tt
  simp only [List.drop_succ_cons, List.drop_zero]
  have h : 1 + tt.length - 1 = tt.length := by omega
  rw [h, List.take_left]

theorem goSlice_idx (tt r : List Char) :
    goSlice ('@' :: (tt ++ '[' :: r)) (1 + tt.length + 1) (1 + tt.length + r.length) = r.dropLast := by
  unfold goSlice
  have h1 : ('@' :: (tt ++ '[' :: r)) = (('@' :: tt) ++ ['[']) ++ r := by simp
  rw [h1]
  have h2 : (1 + tt.length + 1) = (('@' :: tt) ++ ['[']).length := by simp; omega
  rw [h2, List.drop_left]
  have h3 : 1 + tt.length + r.length - (('@' :: tt) ++ ['[']).length = r.length - 1 := by
    simp; omega
  rw [h3, ← List.dropLast_eq_take]

theorem unmangle_ok_iff (name : List Char) (t : List Char) (i : Int) :
    unmangleSectionName name = (t, i, none) ↔ amendedParse name = some (t, i) := by
  by_cases hlen : name.length < 5
  · constructor
    · intro h
      rw [unmangleSectionName, if_pos hlen] at h
      simp [Prod.ext_iff] at h
    · intro h
      rw [amendedParse, if_pos hlen] at h
      cases h
  · match name with
    | [] => exact absurd (by simp) hlen
    | c :: body =>
      by_cases hc : c = '@'
      · subst hc
        have hket : ('@' :: body).length - 1 = body.length := by simp
        have hhead : ¬ (('@' :: body).head? ≠ some '@') := by simp
        constructor
        · intro h
          rw [unmangleSectionName, if_neg hlen, if_neg hhead, hket, scanLoop_step_at0] at h
          cases hscan : scanLoop body 1 0 body.length with
          | error e =>
            simp only [hscan] at h
            simp [Prod.ext_iff] at h
          | ok bra =>
            simp only [hscan] at h
            by_cases hbad : bra = 0 ∨ bra ≥ body.length
            · rw [if_pos hbad] at h
              simp [Prod.ext_iff] at h
            · rw [if_neg hbad] at h
              push_neg at hbad
              obtain ⟨hbra0, hbralt⟩ := hbad
              obtain ⟨tt, r, hbody, hb, htt, hr⟩ :=
                scanLoop_pre_sound body 1 body.length bra (by omega) hscan hbra0
              subst hbody
              subst hb
              have hrne : r ≠ [] := by
                intro hre
                subst hre
                simp at hbralt
                omega
              have hlenbody : (tt ++ '[' :: r).length = 1 + tt.length + r.length := by
                simp
                omega
              rw [hlenbody, goSlice_typ, goSlice_idx] at h
              simp only [Prod.mk.injEq] at h
              obtain ⟨htyp, hval, herr⟩ := h
              have hp2 : (atoiGo r.dropLast).2 = true := by
                by_contra hp2
                rw [if_neg hp2] at herr
                cases herr
              rw [amendedParse, if_neg hlen, if_neg hhead]
              simp only [List.tail_cons]
              have hsplit : splitAtBracket (tt ++ '[' :: r) = some (tt, r) :=
                (splitAtBracket_iff _ tt r).2 ⟨rfl, okSegB_no_bracket 1 _ htt⟩
              simp only [hsplit]
              have hall : ∀ c ∈ tt, c ≠ '@' ∧ c ≠ '[' ∧ c ≠ ']' := by
                refine okSegB_inert_of_lt 1 htt ?_
                have := hlenbody
                omega
              rw [if_pos hall]
              have hlast := List.getLast?_eq_getLast r hrne
              simp only [hlast]
              have hdec : r.dropLast ++ [r.getLast hrne] = r := List.dropLast_append_getLast hrne
              have hseg : okSegB [r.getLast hrne]
                  (1 + tt.length + 1 + r.dropLast.length) ((tt ++ '[' :: r).length) = true := by
                have := (okSegB_append r.dropLast [r.getLast hrne] _ (1 + tt.length + 1)).1
                  (by rw [hdec]; exact hr)
                exact this.2
              rw [okSegB_cons] at hseg
              obtain ⟨hl1, hl2, _, _⟩ := hseg
              rw [if_pos ⟨hl1, hl2⟩, if_pos hp2]
              rw [htyp, hval]
        · intro h
          rw [amendedParse, if_neg hlen, if_neg hhead] at h
          simp only [List.tail_cons] at h
          cases hsplit : splitAtBracket body with
          | none =>
            simp only [hsplit] at h
            cases h
          | some p =>
            obtain ⟨typ, after⟩ := p
            simp only [hsplit] at h
            obtain ⟨hbody, hnotyp⟩ := (splitAtBracket_iff body typ after).1 hsplit
            by_cases hall : ∀ c ∈ typ, c ≠ '@' ∧ c ≠ '[' ∧ c ≠ ']'
            · rw [if_pos hall] at h
              cases hlast : after.getLast? with
              | none =>
                simp only [hlast] at h
                cases h
              | some last =>
                simp only [hlast] at h
                by_cases hl2 : last ≠ '@' ∧ last ≠ '['
                · rw [if_pos hl2] at h
                  by_cases hat2 : (atoiGo after.dropLast).2 = true
                  · rw [if_pos hat2] at h
                    simp only [Option.some.injEq, Prod.mk.injEq] at h
                    obtain ⟨htyp, hval⟩ := h
                    have hane : after ≠ [] := by
                      intro hae
                      subst hae
                      simp at hlast
                    have hlasteq : after.getLast hane = last := by
                      have h0 := List.getLast?_eq_getLast after hane
                      rw [hlast] at h0
                      exact Option.some_inj.1 h0.symm
                    have hdec : after.dropLast ++ [last] = after := by
                      rw [← hlasteq]
                      exact List.dropLast_append_getLast hane
                    have hane2 : after.length ≠ 0 := by
                      intro hz
                      exact hane (List.length_eq_zero.1 hz)
                    have hlen2 : after.length = after.dropLast.length + 1 := by
                      rw [List.length_dropLast]
                      omega
                    have hketlen : (typ ++ '[' :: after).length = 1 + typ.length + after.length := by
                      simp only [List.length_append, List.length_cons]
                      omega
                    have hsegafter0 : okSegB (after.dropLast ++ [last]) (1 + typ.length + 1)
                        ((typ ++ '[' :: after).length) = true := by
                      rw [okSegB_append]
                      constructor
                      · refine okSegB_of_inert ?_ _ _
                        intro ch hch
                        have hq := atoiGo_chars (show atoiGo after.dropLast =
                            ((atoiGo after.dropLast).1, true) by
                          have hpair : atoiGo after.dropLast =
                              ((atoiGo after.dropLast).1, (atoiGo after.dropLast).2) := rfl
                          rw [hpair, hat2]) ch hch
                        exact sign_digit_inert hq
                      · rw [okSegB_cons]
                        refine ⟨hl2.1, hl2.2, ?_, by simp [okSegB]⟩
                        intro _
                        rw [hketlen]
                        omega
                    have hsegafter : okSegB after (1 + typ.length + 1)
                        ((typ ++ '[' :: after).length) = true := by
                      rw [hdec] at hsegafter0
                      exact hsegafter0
                    have hscan : scanLoop body 1 0 body.length = .ok (1 + typ.length) := by
                      rw [hbody]
                      exact scanLoop_pre_complete typ after 1 _ (by omega)
                        (okSegB_of_inert hall 1 _) hsegafter
                    rw [unmangleSectionName, if_neg hlen, if_neg hhead, hket,
                      scanLoop_step_at0]
                    simp only [hscan]
                    have hbad : ¬ (1 + typ.length = 0 ∨ 1 + typ.length ≥ body.length) := by
                      push_neg
                      refine ⟨by omega, ?_⟩
                      have h8 : body.length = 1 + typ.length + after.length := by
                        rw [hbody, hketlen]
                      omega
                    rw [if_neg hbad, hbody, hketlen, goSlice_typ, goSlice_idx]
                    have hp : atoiGo after.dropLast = (i, true) := by
                      have hpair : atoiGo after.dropLast =
                          ((atoiGo after.dropLast).1, (atoiGo after.dropLast).2) := rfl
                      rw [hpair, hat2, hval]
                    rw [hp, htyp]
                    simp
                  · rw [if_neg hat2] at h
                    cases h
                · rw [if_neg hl2] at h
                  cases h
            · rw [if_neg hall] at h
              cases h
      · have hhead2 : ((c :: body).head? ≠ some '@') := by simp [hc]
        constructor
        · intro h
          rw [unmangleSectionName, if_neg hlen, if_pos hhead2] at h
          simp [Prod.ext_iff] at h
        · intro h
          rw [amendedParse, if_neg hlen, if_pos hhead2] at h
          cases h

theorem validTypeB_ne_nil {T : List Char} (h : validTypeB T = true) : T ≠ [] := by
  simp [validTypeB, List.isEmpty_iff] at h
  exact h.1

theorem validTypeB_chars {T : List Char} (h : validTypeB T = true) :
    ∀ c ∈ T, c ≠ '@' ∧ c ≠ '[' ∧ c ≠ ']' := by
  simp [validTypeB, List.all_eq_true, List.isEmpty_iff] at h
  intro c hc
  have h9 := h.2 c hc
  tauto

theorem itoa_ne_nil (i : Int) : itoa i ≠ [] := by
  unfold itoa
  split
  · simp
  · exact natDigits_ne_nil _

theorem mangle_eq (T : List Char) (i : Int) :
    Num2PlaceholderSection T i = '@' :: (T ++ '[' :: (itoa i ++ [']'])) := by
  show strL "@" ++ T ++ strL "[" ++ itoa i ++ strL "]" = _
  rw [show strL "@" = ['@'] from rfl, show strL "[" = ['['] from rfl,
    show strL "]" = [']'] from rfl]
  simp

theorem amendedParse_mangle {T : List Char} {i : Int} (hT : validTypeB T = true)
    (h1 : -two63 ≤ i) (h2 : i < two63) :
    amendedParse (Num2PlaceholderSection T i) = some (T, i) := by
  rw [mangle_eq]
  have hTn : T ≠ [] := validTypeB_ne_nil hT
  have hin : itoa i ≠ [] := itoa_ne_nil i
  have hlen : ¬ ('@' :: (T ++ '[' :: (itoa i ++ [']']))).length < 5 := by
    simp only [List.length_cons, List.length_append]
    have hT1 : 1 ≤ T.length := by
      cases T with
      | nil => exact absurd rfl hTn
      | cons a l => simp
    have hi1 : 1 ≤ (itoa i).length := by
      cases hi : itoa i with
      | nil => exact absurd hi hin
      | cons a l => simp
    simp
    omega
  rw [amendedParse, if_neg hlen, if_neg (by simp)]
  simp only [List.tail_cons]
  have hsplit : splitAtBracket (T ++ '[' :: (itoa i ++ [']'])) = some (T, itoa i ++ [']']) :=
    (splitAtBracket_iff _ T _).2 ⟨rfl, fun hm => (validTypeB_chars hT _ hm).2.1 rfl⟩
  simp only [hsplit]
  rw [if_pos (validTypeB_chars hT)]
  have hlast : (itoa i ++ [']']).getLast? = some ']' := by simp
  simp only [hlast]
  rw [if_pos (by refine ⟨by decide, by decide⟩)]
  have hdl : (itoa i ++ [']']).dropLast = itoa i := by simp
  rw [hdl, atoiGo_itoa h1 h2]
  simp

/-- Round trip: the source's own placeholder-name builder parses back to the
type and index it was built from, for well-formed types and 64-bit indices. -/
theorem unmangle_mangle {T : List Char} {i : Int} (hT : validTypeB T = true)
    (h1 : -two63 ≤ i) (h2 : i < two63) :
    unmangleSectionName (Num2PlaceholderSection T i) = (T, i, none) :=
  (unmangle_ok_iff _ T i).2 (amendedParse_mangle hT h1 h2)

theorem unmangle_err_mem {name t' : List Char} {i' : Int} {e : UciErr}
    (h : unmangleSectionName name = (t', i', some e)) :
    e = .implausibleSectionSelector ∨ e = .mustStartWithAt ∨ e = .multipleAtSigns ∨
    e = .multipleOpenBrackets ∨ e = .multipleCloseBrackets ∨
    e = .invalidSectionSelector ∨ e = .indexMustBeNumeric := by
  rw [unmangleSectionName] at h
  by_cases h1 : name.length < 5
  · rw [if_pos h1] at h
    simp only [Prod.mk.injEq, Option.some.injEq] at h
    tauto
  · rw [if_neg h1] at h
    by_cases h2 : name.head? ≠ some '@'
    · rw [if_pos h2] at h
      simp only [Prod.mk.injEq, Option.some.injEq] at h
      tauto
    · rw [if_neg h2] at h
      cases hscan : scanLoop name 0 0 (name.length - 1) with
      | error e0 =>
        simp only [hscan, Prod.mk.injEq, Option.some.injEq] at h
        have := scanLoop_error_mem name 0 0 (name.length - 1) e0 hscan
        obtain ⟨-, -, he⟩ := h
        subst he
        tauto
      | ok bra =>
        simp only [hscan] at h
        by_cases h3 : bra = 0 ∨ bra ≥ name.length - 1
        · rw [if_pos h3] at h
          simp only [Prod.mk.injEq, Option.some.injEq] at h
          tauto
        · rw [if_neg h3] at h
          simp only [Prod.mk.injEq] at h
          obtain ⟨-, -, he⟩ := h
          by_cases h4 : (atoiGo (goSlice name (bra + 1) (name.length - 1))).2 = true
          · rw [if_pos h4] at he
            cases he
          · rw [if_neg h4] at he
            simp only [Option.some.injEq] at he
            subst he
            tauto

/-- C3 counterexample: the claim says parsing succeeds exactly for strings of
the form `"@" TYPE "[" INDEX "]"`, but `"@a[0x"` — whose final character is
`x`, not `]` — parses successfully as type `a`, index `0`: the code never
checks the final character. -/
theorem claim_C3_counterexample :
    unmangleSectionName (strL "@a[0x") = (strL "a", 0, none) ∧
    (strL "@a[0x").getLast? ≠ some ']' := by
  decide

/-- C3 (amended): selector parsing is total and deterministic; it succeeds,
returning `(type, index)`, exactly for strings `"@" TYPE "[" INDEX LAST` of
length at least 5 where `TYPE` is zero or more characters excluding
`@ [ ]`, `INDEX` is a base-10 optionally-signed integer within the signed
64-bit range, and `LAST` is any one character other than `@` and `[`
(`amendedParse`); every other string yields one of the seven distinct syntax
errors (the out-of-range index error being folded into the non-numeric
class, as the code wraps both Atoi failures identically). -/
theorem claim_C3_unmangle_characterization (name : List Char) :
    (∀ t i, unmangleSectionName name = (t, i, none) ↔ amendedParse name = some (t, i)) ∧
    (∀ t i e, unmangleSectionName name = (t, i, some e) →
      e = .implausibleSectionSelector ∨ e = .mustStartWithAt ∨ e = .multipleAtSigns ∨
      e = .multipleOpenBrackets ∨ e = .multipleCloseBrackets ∨
      e = .invalidSectionSelector ∨ e = .indexMustBeNumeric) :=
  ⟨fun t i => unmangle_ok_iff name t i, fun _ _ _ h => unmangle_err_mem h⟩

/-- C3 witness: the characterization applied to the concrete selector
`"@a[7]"`. -/
theorem claim_C3_witness :
    amendedParse (strL "@a[7]") = some (strL "a", 7) :=
  ((claim_C3_unmangle_characterization (strL "@a[7]")).1 (strL "a") 7).mp (by decide)

/-! Lemmas about counting and positional lookup. -/

theorem countGo_eq_filter (ss : List Section) (typ : List Char) :
    countGo ss typ = (ss.filter (fun s => s.Typ == typ)).length := by
  induction ss with
  | nil => rfl
  | cons sec rest ih =>
    by_cases h : sec.Typ = typ
    · simp [countGo, List.filter_cons, h, ih]
      omega
    · simp [countGo, List.filter_cons, h, ih]

theorem countGo_le_length (ss : List Section) (typ : List Char) :
    countGo ss typ ≤ ss.length := by
  rw [countGo_eq_filter]
  exact List.length_filter_le _ _

theorem findUnnamed_eq (typ : List Char) (ss : List Section) : ∀ (j : Nat) (n : Int),
    findUnnamed typ (n + j) ss n = (ss.filter (fun s => s.Typ == typ))[j]? := by
  induction ss with
  | nil => intro j n; simp [findUnnamed]
  | cons sec rest ih =>
    intro j n
    by_cases h : sec.Typ = typ
    · cases j with
      | zero =>
        simp [findUnnamed, h, List.filter_cons]
      | succ j' =>
        have hne : ¬ (n + ((j' + 1 : Nat) : Int) = n) := by push_cast; omega
        have harr : n + ((j' + 1 : Nat) : Int) = (n + 1) + (j' : Int) := by push_cast; omega
        simp only [findUnnamed, if_pos h]
        rw [if_neg hne, harr, ih j' (n + 1)]
        simp [List.filter_cons, h]
    · simp only [findUnnamed, if_neg h, List.filter_cons]
      rw [ih j n]
      simp [h]

theorem mangle_head (T : List Char) (i : Int) :
    (Num2PlaceholderSection T i).head? = some '@' := by
  rw [mangle_eq]
  rfl

theorem getUnnamed_mangle (c : Config) {T : List Char} {i : Int} (hT : validTypeB T = true)
    (hlo : -two63 ≤ i) (hhi : i < two63) :
    c.getUnnamed (Num2PlaceholderSection T i) =
      (if -(c.count T : Int) > i ∨ i ≥ (c.count T : Int) then .error .unnamedIndexOutOfBounds
       else .ok (findUnnamed T (if i < 0 then i + c.count T else i) c.Sections 0)) := by
  simp only [Config.getUnnamed, unmangle_mangle hT hlo hhi]

theorem two63_pos : (0 : Int) < two63 := by norm_num [two63]

theorem count_lt_two63 (c : Config) (T : List Char) (hsz : c.Sections.length < 2 ^ 63) :
    ((c.count T : Int)) < two63 := by
  have h1 : c.count T < 2 ^ 63 := lt_of_le_of_lt (countGo_le_length _ _) hsz
  have h2 : ((c.count T : Nat) : Int) < (((2 : Nat) ^ 63 : Nat) : Int) := by exact_mod_cast h1
  calc ((c.count T : Int)) < (((2 : Nat) ^ 63 : Nat) : Int) := h2
    _ = two63 := by simp [two63]

/-- C1: for a well-formed type `T` (and a config of Go-representable size),
positional lookup `Get "@T[i]"` with `0 ≤ i < count T` returns the
`(i+1)`-th section of type `T` in declaration order, and for
`-count T ≤ i < 0` it resolves identically to `Get "@T[i+count T]"`. -/
theorem claim_C1_positional_lookup (c : Config) (T : List Char) (i : Int)
    (hT : validTypeB T = true) (hsz : c.Sections.length < 2 ^ 63) :
    (0 ≤ i → i < (c.count T : Int) →
      c.Get (Num2PlaceholderSection T i) =
        (c.Sections.filter (fun s => s.Typ == T))[i.toNat]? ∧
      ∃ sec, (c.Sections.filter (fun s => s.Typ == T))[i.toNat]? = some sec) ∧
    (-(c.count T : Int) ≤ i → i < 0 →
      c.Get (Num2PlaceholderSection T i) =
        c.Get (Num2PlaceholderSection T (i + c.count T))) := by
  have hc63 := count_lt_two63 c T hsz
  constructor
  · intro h0 hlt
    have hlo : -two63 ≤ i := by have := two63_pos; omega
    have hhi : i < two63 := by omega
    rw [Config.Get, if_pos (mangle_head T i), getUnnamed_mangle c hT hlo hhi,
      if_neg (by omega)]
    have hnneg : ¬ i < 0 := by omega
    rw [if_neg hnneg]
    have hfind : findUnnamed T i c.Sections 0 =
        (c.Sections.filter (fun s => s.Typ == T))[i.toNat]? := by
      conv_lhs => rw [show i = (0 : Int) + ((i.toNat : Nat) : Int) by omega]
      exact findUnnamed_eq T c.Sections i.toNat 0
    rw [hfind]
    have hjlt : i.toNat < (c.Sections.filter (fun s => s.Typ == T)).length := by
      have hcc : c.count T = (c.Sections.filter (fun s => s.Typ == T)).length :=
        countGo_eq_filter c.Sections T
      omega
    exact ⟨rfl, ⟨_, List.getElem?_eq_getElem hjlt⟩⟩
  · intro hge hlt
    have hcpos : (0 : Int) < (c.count T : Int) := by omega
    have hlo : -two63 ≤ i := by omega
    have hhi : i < two63 := by have := two63_pos; omega
    have hlo2 : -two63 ≤ i + (c.count T : Int) := by omega
    have hhi2 : i + (c.count T : Int) < two63 := by omega
    simp only [Config.Get]
    rw [if_pos (mangle_head T i), if_pos (mangle_head T (i + (c.count T : Int))),
      getUnnamed_mangle c hT hlo hhi, getUnnamed_mangle c hT hlo2 hhi2,
      if_neg (show ¬ (-(c.count T : Int) > i ∨ i ≥ (c.count T : Int)) by omega),
      if_neg (show ¬ (-(c.count T : Int) > i + (c.count T : Int) ∨
        i + (c.count T : Int) ≥ (c.count T : Int)) by omega)]
    rw [if_pos (by omega : i < 0), if_neg (by omega : ¬ i + (c.count T : Int) < 0)]

/-- C1 witness: on a config with two unnamed sections of type `t`, the
theorem evaluates `Get "@t[1]"` to the second one and identifies
`Get "@t[-1]"` with `Get "@t[1]"`. -/
theorem claim_C1_witness :
    (Config.Get cW1 (Num2PlaceholderSection (strL "t") 1) =
      (cW1.Sections.filter (fun s => s.Typ == strL "t"))[(1 : Int).toNat]?) ∧
    (Config.Get cW1 (Num2PlaceholderSection (strL "t") (-1)) =
      Config.Get cW1 (Num2PlaceholderSection (strL "t") (-1 + cW1.count (strL "t")))) := by
  have h := claim_C1_positional_lookup cW1 (strL "t") 1 (by decide) (by decide)
  have h2 := claim_C1_positional_lookup cW1 (strL "t") (-1) (by decide) (by decide)
  exact ⟨(h.1 (by decide) (by decide)).1, h2.2 (by decide) (by decide)⟩

/-- C7: for a well-formed type `T` and any 64-bit integer `i` outside
`[-count T, count T)`, positional lookup fails with the index-out-of-bounds
error (it does not return a section, nor a plain nil). -/
theorem claim_C7_out_of_bounds (c : Config) (T : List Char) (i : Int)
    (hT : validTypeB T = true) (hlo : -two63 ≤ i) (hhi : i < two63)
    (h : i ≥ (c.count T : Int) ∨ i < -(c.count T : Int)) :
    c.getUnnamed (Num2PlaceholderSection T i) = .error .unnamedIndexOutOfBounds := by
  rw [getUnnamed_mangle c hT hlo hhi, if_pos (by omega)]

/-- C7 witness: looking up `"@t[2]"` among two sections of type `t` is out of
bounds. -/
theorem claim_C7_witness :
    Config.getUnnamed cW1 (Num2PlaceholderSection (strL "t") 2) =
      .error .unnamedIndexOutOfBounds :=
  claim_C7_out_of_bounds cW1 (strL "t") 2 (by decide) (by decide) (by decide)
    (by decide)

/-- C10: whenever the selector machinery fails (a parse error or an
out-of-range index) on a selector starting with `@`, the public `Get`
returns `none`, discarding the error — indistinguishable from not-found. -/
theorem claim_C10_get_discards_errors (c : Config) (name : List Char) (e : UciErr)
    (hat : name.head? = some '@') (herr : c.getUnnamed name = .error e) :
    c.Get name = none := by
  simp only [Config.Get, if_pos hat, herr]

/-- C10 witness: `Get "@t[9]"` on the two-section config returns `none`
although the lookup failed with an out-of-bounds error. -/
theorem claim_C10_witness : Config.Get cW1 (strL "@t[9]") = none :=
  claim_C10_get_discards_errors cW1 (strL "@t[9]") .unnamedIndexOutOfBounds
    (by decide) rfl

/-! Lemmas about value merging. -/

theorem mergeValues_go (have_ : List (List Char)) (vs : List (List Char)) :
    ∀ (o : UOption),
    vs.foldl (fun acc v => if v ∈ have_ then acc else acc.AddValue v) o =
      { o with Values := o.Values ++ vs.filter (fun v => decide (v ∉ have_)) } := by
  induction vs with
  | nil =>
    intro o
    cases o
    simp
  | cons v rest ih =>
    intro o
    by_cases h : v ∈ have_
    · simp only [List.foldl_cons, if_pos h, List.filter_cons]
      rw [ih o]
      have hd : (decide (v ∉ have_)) = false := by simp [h]
      rw [hd]
      simp
    · simp only [List.foldl_cons, if_neg h, List.filter_cons]
      rw [ih (o.AddValue v)]
      have hd : (decide (v ∉ have_)) = true := by simp [h]
      rw [hd]
      simp [UOption.AddValue]

theorem mergeValues_eq (o : UOption) (vs : List (List Char)) :
    o.MergeValues vs =
      { o with Values := o.Values ++ vs.filter (fun v => decide (v ∉ o.Values)) } := by
  simp only [UOption.MergeValues]
  exact mergeValues_go o.Values vs o

/-- C4 counterexample: merging the incoming sequence `["a", "a"]` into an
option holding no values appends `"a"` twice — the membership set is built
once from the pre-call values and never updated during the appends — so the
result is not duplicate-free even though the original values were. -/
theorem claim_C4_counterexample :
    (UOption.MergeValues ⟨strL "k", [], .TypeList⟩ [strL "a", strL "a"]).Values
        = [strL "a", strL "a"] ∧
    ¬ (UOption.MergeValues ⟨strL "k", [], .TypeList⟩ [strL "a", strL "a"]).Values.Nodup := by
  decide

/-- C4 (amended): when the option's values and the incoming sequence are each
duplicate-free, `MergeValues` appends exactly the incoming values not already
present (never removing or reordering existing ones), the result is
duplicate-free and contains precisely the union of both sequences, and
merging the same sequence again changes nothing (idempotence). -/
theorem claim_C4_merge_values (o : UOption) (vs : List (List Char))
    (h1 : o.Values.Nodup) (h2 : vs.Nodup) :
    (∃ t2, (o.MergeValues vs).Values = o.Values ++ t2 ∧
      ∀ v ∈ t2, v ∈ vs ∧ v ∉ o.Values) ∧
    (o.MergeValues vs).Values.Nodup ∧
    (∀ v, v ∈ (o.MergeValues vs).Values ↔ v ∈ o.Values ∨ v ∈ vs) ∧
    (o.MergeValues vs).MergeValues vs = o.MergeValues vs := by
  refine ⟨⟨vs.filter (fun v => decide (v ∉ o.Values)), ?_, ?_⟩, ?_, ?_, ?_⟩
  · rw [mergeValues_eq]
  · intro v hv
    have := List.of_mem_filter hv
    simp at this
    exact ⟨List.mem_of_mem_filter hv, this⟩
  · rw [mergeValues_eq]
    refine List.Nodup.append h1 (List.Nodup.filter _ h2) ?_
    rw [List.disjoint_left]
    intro a ha hfa
    have := List.of_mem_filter hfa
    simp at this
    exact this ha
  · intro v
    rw [mergeValues_eq]
    simp only [List.mem_append, List.mem_filter, decide_eq_true_eq]
    constructor
    · rintro (h | ⟨h, -⟩)
      · exact Or.inl h
      · exact Or.inr h
    · rintro (h | h)
      · exact Or.inl h
      · by_cases hm : v ∈ o.Values
        · exact Or.inl hm
        · exact Or.inr ⟨h, by simpa using hm⟩
  · rw [mergeValues_eq, mergeValues_eq]
    simp only
    have hnil : vs.filter (fun v =>
        decide (v ∉ o.Values ++ vs.filter (fun v => decide (v ∉ o.Values)))) = [] := by
      rw [List.filter_eq_nil_iff]
      intro v hv
      simp only [decide_eq_true_eq, not_not]
      rw [List.mem_append]
      by_cases hm : v ∈ o.Values
      · exact Or.inl hm
      · exact Or.inr (List.mem_filter.2 ⟨hv, by simpa using hm⟩)
    rw [hnil]
    cases o
    simp

/-- C4 witness: the amended statement applied to the option `k = ["a"]` and
the incoming values `["a", "b"]`. -/
theorem claim_C4_witness :
    (∃ t2, ((⟨strL "k", [strL "a"], .TypeList⟩ : UOption).MergeValues
        [strL "a", strL "b"]).Values = [strL "a"] ++ t2 ∧
      ∀ v ∈ t2, v ∈ [strL "a", strL "b"] ∧ v ∉ [strL "a"]) ∧
    ((⟨strL "k", [strL "a"], .TypeList⟩ : UOption).MergeValues
        [strL "a", strL "b"]).Values.Nodup ∧
    (∀ v, v ∈ ((⟨strL "k", [strL "a"], .TypeList⟩ : UOption).MergeValues
        [strL "a", strL "b"]).Values ↔ v ∈ [strL "a"] ∨ v ∈ [strL "a", strL "b"]) ∧
    ((⟨strL "k", [strL "a"], .TypeList⟩ : UOption).MergeValues
        [strL "a", strL "b"]).MergeValues [strL "a", strL "b"] =
      (⟨strL "k", [strL "a"], .TypeList⟩ : UOption).MergeValues [strL "a", strL "b"] :=
  claim_C4_merge_values ⟨strL "k", [strL "a"], .TypeList⟩ [strL "a", strL "b"]
    (by decide) (by decide)

/-! Lemmas about section identity and merging. -/

theorem indexGo_mem {ss : List Section} {s : Section} (h : s ∈ ss) :
    ∀ i, ∃ n, indexGo ss s i = some n := by
  induction ss with
  | nil => simp at h
  | cons sec rest ih =>
    intro i
    by_cases hp : sec.ptr = s.ptr
    · exact ⟨i, by simp [indexGo, hp]⟩
    · rcases List.mem_cons.1 h with he | he
      · subst he
        exact absurd rfl hp
      · obtain ⟨n, hn⟩ := ih he (if sec.Typ = s.Typ then i + 1 else i)
        exact ⟨n, by simp [indexGo, hp, hn]⟩

theorem sectionName_mem {c : Config} {sec : Section} (h : sec ∈ c.Sections) :
    ∃ k, c.sectionName sec = some k := by
  by_cases hn : sec.Name = []
  · obtain ⟨n, hn2⟩ := indexGo_mem h 0
    refine ⟨strL "@" ++ (sec.Typ ++ (strL "[" ++ (itoa (n : Int) ++ strL "]"))), ?_⟩
    simp [Config.sectionName, hn, Config.index, hn2]
  · exact ⟨sec.Name, by simp [Config.sectionName, hn]⟩

theorem mergeFindLoop_cases (c : Config) (sname : List Char) (ss : List Section)
    (hsub : ∀ sec ∈ ss, ∃ k, c.sectionName sec = some k) :
    ((∀ sec ∈ ss, c.sectionName sec ≠ some sname) ∧ mergeFindLoop c sname ss = some none) ∨
    (∃ sec, sec ∈ ss ∧ c.sectionName sec = some sname ∧
      mergeFindLoop c sname ss = some (some sec)) := by
  induction ss with
  | nil => exact Or.inl ⟨by simp, rfl⟩
  | cons sec rest ih =>
    obtain ⟨k, hk⟩ := hsub sec (by simp)
    by_cases he : k = sname
    · subst he
      right
      exact ⟨sec, by simp, hk, by simp [mergeFindLoop, hk]⟩
    · have hne : ¬ sname = k := fun hcon => he hcon.symm
      rcases ih (fun s2 hs => hsub s2 (by simp [hs])) with ⟨hall, hres⟩ | ⟨s0, hs0, hname0, hres⟩
      · left
        constructor
        · intro s2 hs
          rcases List.mem_cons.1 hs with rfl | hs
          · rw [hk]
            intro hcon
            exact he (Option.some_inj.1 hcon)
          · exact hall s2 hs
        · simp only [mergeFindLoop, hk]
          rw [if_neg hne]
          exact hres
      · right
        refine ⟨s0, by simp [hs0], hname0, ?_⟩
        simp only [mergeFindLoop, hk]
        rw [if_neg hne]
        exact hres

/-- C2 counterexample: merging a freshly built unnamed section of type `t`
into a non-empty config holding one unnamed `t`-section panics (the incoming
key computation calls `index` on a section the config does not own, reaching
`panic("not reached")`), so nothing is merged, returned, or appended — the
claim's described behavior never happens for unnamed incoming sections. -/
theorem claim_C2_counterexample :
    Config.Merge ⟨strL "c", [⟨1, [], strL "t", []⟩]⟩ ⟨2, [], strL "t", []⟩ = none := rfl

/-- C2 (amended): for an incoming section with a non-empty Name, `Merge`
returns normally; when some existing section's identity key (its Name when
non-empty, else its synthetic `@type[index]` form) equals the incoming
Name, every incoming option is merged into that section via `Section.Merge`,
the updated section is returned and the section count is unchanged;
otherwise the section is appended and returned. -/
theorem claim_C2_merge_named (c : Config) (s : Section) (hname : s.Name ≠ []) :
    ∃ c' ret, c.Merge s = some (c', ret) ∧
      ((∃ sec ∈ c.Sections, c.sectionName sec = some s.Name) →
        c'.Sections.length = c.Sections.length ∧
        ∃ sec ∈ c.Sections, c.sectionName sec = some s.Name ∧
          ret = s.Options.foldl Section.Merge sec ∧
          c'.Sections = c.Sections.map (fun t => if t.ptr = sec.ptr then ret else t)) ∧
      ((∀ sec ∈ c.Sections, c.sectionName sec ≠ some s.Name) →
        c'.Sections = c.Sections ++ [s] ∧ ret = s) := by
  obtain ⟨cn, csecs⟩ := c
  cases csecs with
  | nil =>
    refine ⟨Config.Add ⟨cn, []⟩ s, s, by simp [Config.Merge], ?_, ?_⟩
    · rintro ⟨sec, hsec, -⟩
      simp at hsec
    · intro _
      exact ⟨rfl, rfl⟩
  | cons s0 rest =>
    have hsn : Config.sectionName ⟨cn, s0 :: rest⟩ s = some s.Name := by
      simp [Config.sectionName, hname]
    have hsub : ∀ sec ∈ (s0 :: rest), ∃ k,
        Config.sectionName ⟨cn, s0 :: rest⟩ sec = some k :=
      fun sec hs => sectionName_mem (c := ⟨cn, s0 :: rest⟩) hs
    rcases mergeFindLoop_cases ⟨cn, s0 :: rest⟩ s.Name (s0 :: rest) hsub with
      ⟨hall, hres⟩ | ⟨sec, hsec, hkey, hres⟩
    · refine ⟨Config.Add ⟨cn, s0 :: rest⟩ s, s, ?_, ?_, ?_⟩
      · simp only [Config.Merge, hsn, hres]
      · rintro ⟨sec, hsec, hk⟩
        exact absurd hk (hall sec hsec)
      · intro _
        exact ⟨rfl, rfl⟩
    · refine ⟨⟨cn, (s0 :: rest).map
          (fun t => if t.ptr = sec.ptr then s.Options.foldl Section.Merge sec else t)⟩,
        s.Options.foldl Section.Merge sec, ?_, ?_, ?_⟩
      · simp only [Config.Merge, hsn, hres]
      · intro _
        exact ⟨by simp, sec, hsec, hkey, rfl, rfl⟩
      · intro hnone
        exact absurd hkey (hnone sec hsec)

/-- C2 witness: merging a named section whose name matches an existing one
returns normally. -/
theorem claim_C2_witness : Config.Merge cW2 sW2 ≠ none := by
  obtain ⟨c', ret, heq, -, -⟩ := claim_C2_merge_named cW2 sW2 (by decide)
  rw [heq]
  simp

theorem merge_named_ne_none (c : Config) (s : Section) (hname : s.Name ≠ []) :
    c.Merge s ≠ none := by
  obtain ⟨cn, csecs⟩ := c
  cases csecs with
  | nil => simp [Config.Merge]
  | cons s0 rest =>
    have hsn : Config.sectionName ⟨cn, s0 :: rest⟩ s = some s.Name := by
      simp [Config.sectionName, hname]
    have hsub : ∀ sec ∈ (s0 :: rest), ∃ k,
        Config.sectionName ⟨cn, s0 :: rest⟩ sec = some k :=
      fun sec hs => sectionName_mem (c := ⟨cn, s0 :: rest⟩) hs
    rcases mergeFindLoop_cases ⟨cn, s0 :: rest⟩ s.Name (s0 :: rest) hsub with
      ⟨-, hres⟩ | ⟨sec, -, -, hres⟩ <;>
      simp [Config.Merge, hsn, hres]

theorem delGo_noop (name : List Char) : ∀ ss : List Section,
    (∀ sec ∈ ss, sec.Name ≠ name ∧ IsPlaceholderName name sec.Typ = false) →
    ∀ cnt, delGo name cnt ss = ss := by
  intro ss
  induction ss with
  | nil => intro _ cnt; rfl
  | cons sec rest ih =>
    intro h cnt
    have hh := h sec (by simp)
    simp [delGo, hh.1, hh.2, ih (fun s2 hs => h s2 (by simp [hs]))]

theorem delOption_absent (oname : List Char) : ∀ opts : List UOption,
    (∀ o2 ∈ opts, o2.Name ≠ oname) → delOption opts oname = none := by
  intro opts
  induction opts with
  | nil => intro _; rfl
  | cons o2 rest ih =>
    intro h
    simp only [delOption]
    rw [if_neg (h o2 (by simp)), ih (fun o3 ho => h o3 (by simp [ho]))]
    rfl

theorem mergeOptionList_absent (o : UOption) : ∀ opts : List UOption,
    (∀ o2 ∈ opts, o2.Name ≠ o.Name) → mergeOptionList opts o = opts ++ [o] := by
  intro opts
  induction opts with
  | nil => intro _; rfl
  | cons o2 rest ih =>
    intro h
    simp only [mergeOptionList]
    rw [if_neg (h o2 (by simp)), ih (fun o3 ho => h o3 (by simp [ho]))]
    simp

/-- C5 counterexample: `Config.Merge` fails — it reaches the internal
`panic("not reached")` — when the incoming section is unnamed, freshly
allocated, and the config is non-empty, contradicting the claim that all
four mutation operations return normally on every input. -/
theorem claim_C5_counterexample :
    Config.Merge ⟨strL "d", [⟨7, [], strL "u", []⟩]⟩ ⟨8, [], strL "u", []⟩ = none := rfl

/-- C5 (amended): `Section.Del` and `Section.Merge` never fail and act as
no-ops (or plain appends) on absent targets; `Config.Del` does so as well
provided every stored section type is free of regex metacharacters — Go's
`Del` compiles `^@<Type>\[(\d+)\]$` for each section's type and
`regexp.MustCompile` panics on an invalid pattern — and `Config.Merge`
never fails when the incoming section is named or the config is empty; the
remaining failure is the unnamed-fresh-section merge panic of the
counterexample. -/
theorem claim_C5_mutation_totality (c : Config) (s sm : Section) (o : UOption)
    (name oname : List Char) :
    (s.Name ≠ [] → c.Merge s ≠ none) ∧
    (c.Sections = [] → c.Merge s ≠ none) ∧
    ((∀ sec ∈ c.Sections, regexSafe sec.Typ = true ∧ sec.Name ≠ name ∧
        IsPlaceholderName name sec.Typ = false) →
      c.Del name = c) ∧
    ((∀ o2 ∈ sm.Options, o2.Name ≠ oname) → sm.Del oname = (sm, false)) ∧
    ((∀ o2 ∈ sm.Options, o2.Name ≠ o.Name) →
      sm.Merge o = { sm with Options := sm.Options ++ [o] }) := by
  refine ⟨fun hname => merge_named_ne_none c s hname, ?_, ?_, ?_, ?_⟩
  · intro hempty
    obtain ⟨cn, csecs⟩ := c
    simp only at hempty
    subst hempty
    simp [Config.Merge]
  · intro h
    obtain ⟨cn, csecs⟩ := c
    simp only [Config.Del]
    rw [delGo_noop name csecs (fun sec hs => ⟨(h sec hs).2.1, (h sec hs).2.2⟩)]
  · intro h
    simp only [Section.Del]
    rw [delOption_absent oname sm.Options h]
  · intro h
    simp only [Section.Merge]
    rw [mergeOptionList_absent o sm.Options h]

/-- C5 witness: the four conclusions at concrete inputs with absent
targets. -/
theorem claim_C5_witness :
    (Config.Merge cW5 sW5 ≠ none) ∧
    (Config.Del cW5 (strL "zzz") = cW5) ∧
    (Section.Del sW5 (strL "zzz") = (sW5, false)) ∧
    (Section.Merge sW5 ⟨strL "p", [strL "q"], .TypeOption⟩ =
      { sW5 with Options := sW5.Options ++ [⟨strL "p", [strL "q"], .TypeOption⟩] }) := by
  have h := claim_C5_mutation_totality cW5 sW5 sW5 ⟨strL "p", [strL "q"], .TypeOption⟩
    (strL "zzz") (strL "zzz")
  exact ⟨h.1 (by decide), h.2.2.1 (by decide), h.2.2.2.1 (by decide),
    h.2.2.2.2 (by decide)⟩

/-! Lemmas about placeholder names and deletion. -/

theorem itoa_chars (i : Int) : ∀ c ∈ itoa i, c.isDigit = true ∨ c = '-' := by
  unfold itoa
  split
  · intro c hc
    rcases List.mem_cons.1 hc with rfl | hc
    · exact Or.inr rfl
    · exact Or.inl (natDigits_all_isDigit _ c hc)
  · intro c hc
    exact Or.inl (natDigits_all_isDigit _ c hc)

theorem bracket_not_mem_itoa (i : Int) : '[' ∉ itoa i := by
  intro hm
  rcases itoa_chars i '[' hm with h | h
  · exact absurd h (by decide)
  · cases h

theorem bracket_split_unique : ∀ X U Y r : List Char, '[' ∉ X → '[' ∉ Y →
    X ++ '[' :: Y = U ++ '[' :: r → X = U ∧ Y = r := by
  intro X
  induction X with
  | nil =>
    intro U Y r _ hY heq
    cases U with
    | nil => simpa using heq
    | cons u U' =>
      simp only [List.nil_append, List.cons_append, List.cons.injEq] at heq
      exfalso
      apply hY
      rw [heq.2]
      simp
  | cons x X' ih =>
    intro U Y r hX hY heq
    cases U with
    | nil =>
      simp only [List.cons_append, List.nil_append, List.cons.injEq] at heq
      exact absurd (by simp [heq.1]) hX
    | cons u U' =>
      simp only [List.cons_append, List.cons.injEq] at heq
      obtain ⟨h1, h2⟩ := heq
      obtain ⟨h3, h4⟩ := ih U' Y r (fun hm => hX (by simp [hm])) hY h2
      exact ⟨by rw [h1, h3], h4⟩

theorem isPlaceholder_decomp {name U : List Char} (h : IsPlaceholderName name U = true) :
    ∃ ds, name = '@' :: (U ++ '[' :: (ds ++ [']'])) ∧ ds ≠ [] ∧
      ds.all Char.isDigit = true := by
  match name with
  | [] => exact absurd h (by simp [IsPlaceholderName])
  | c :: rest =>
    simp only [IsPlaceholderName, Bool.and_eq_true, beq_iff_eq] at h
    obtain ⟨⟨hc, htake⟩, hrest⟩ := h
    subst hc
    cases hdrop : rest.drop U.length with
    | nil =>
      rw [hdrop] at hrest
      simp at hrest
    | cons d r =>
      rw [hdrop] at hrest
      simp only [Bool.and_eq_true, beq_iff_eq, Bool.not_eq_true'] at hrest
      obtain ⟨⟨⟨hd, hlast⟩, hne⟩, hdig⟩ := hrest
      subst hd
      have hrne : r ≠ [] := by
        intro hz
        subst hz
        simp at hlast
      have hgl : r.getLast hrne = ']' := by
        have h0 := List.getLast?_eq_getLast r hrne
        rw [hlast] at h0
        exact Option.some_inj.1 h0.symm
      have hr : r = r.dropLast ++ [']'] := by
        conv_lhs => rw [← List.dropLast_append_getLast hrne]
        rw [hgl]
      have hdsne : r.dropLast ≠ [] := by
        intro hz
        rw [hz] at hne
        simp at hne
      refine ⟨r.dropLast, ?_, hdsne, hdig⟩
      have hrest2 : rest = U ++ '[' :: r := by
        conv_lhs => rw [← List.take_append_drop U.length rest]
        rw [hdrop, htake]
      rw [hrest2, ← hr]

theorem isPlaceholder_mangle_self {T : List Char} {i : Int} (hT : validTypeB T = true)
    (hi : 0 ≤ i) : IsPlaceholderName (Num2PlaceholderSection T i) T = true := by
  rw [mangle_eq]
  have hitoa : itoa i = natDigits i.toNat := by simp [itoa]; omega
  simp only [IsPlaceholderName, Bool.and_eq_true, beq_iff_eq]
  refine ⟨⟨trivial, ?_⟩, ?_⟩
  · exact List.take_left T _
  · rw [List.drop_left]
    simp only [Bool.and_eq_true, beq_iff_eq, Bool.not_eq_true']
    refine ⟨⟨⟨trivial, by simp⟩, ?_⟩, ?_⟩
    · simp [List.dropLast_concat, List.isEmpty_iff, hitoa, natDigits_ne_nil]
    · simp only [List.dropLast_concat, hitoa, List.all_eq_true]
      exact natDigits_all_isDigit _

theorem isPlaceholder_mangle_inv {T U : List Char} {i : Int} (hT : validTypeB T = true)
    (h : IsPlaceholderName (Num2PlaceholderSection T i) U = true) :
    U = T ∧ (itoa i).all Char.isDigit = true := by
  obtain ⟨ds, hshape, hdsne, hdig⟩ := isPlaceholder_decomp h
  rw [mangle_eq] at hshape
  have heq : T ++ '[' :: (itoa i ++ [']']) = U ++ '[' :: (ds ++ [']']) := by
    injection hshape with hh1 hh2
  obtain ⟨hTU, hYr⟩ := bracket_split_unique T U _ _
    (fun hm => (validTypeB_chars hT _ hm).2.1 rfl)
    (by
      intro hm
      rcases List.mem_append.1 hm with hm | hm
      · exact bracket_not_mem_itoa i hm
      · simp at hm) heq
  have hds : itoa i = ds := by
    have h9 := congrArg List.dropLast hYr
    simpa using h9
  exact ⟨hTU.symm, by rw [hds]; exact hdig⟩

theorem isPlaceholder_mangle_neg {T : List Char} {i : Int} (hT : validTypeB T = true)
    (hi : i < 0) (U : List Char) :
    IsPlaceholderName (Num2PlaceholderSection T i) U = false := by
  by_contra hcon
  rw [Bool.not_eq_false] at hcon
  obtain ⟨-, hdig⟩ := isPlaceholder_mangle_inv hT hcon
  have hit : itoa i = '-' :: natDigits (-i).toNat := by simp [itoa, hi]
  have hmem : '-' ∈ itoa i := by rw [hit]; simp
  have hd := List.all_eq_true.1 hdig '-' hmem
  exact absurd hd (by decide)

theorem isPlaceholder_mangle_iff {T : List Char} {i : Int} (hT : validTypeB T = true)
    (hi : 0 ≤ i) (U : List Char) :
    IsPlaceholderName (Num2PlaceholderSection T i) U = (U == T) := by
  by_cases hU : U = T
  · subst hU
    rw [isPlaceholder_mangle_self hT hi]
    simp
  · have hUT : (U == T) = false := by simp [hU]
    rw [hUT]
    by_contra hcon
    rw [Bool.not_eq_false] at hcon
    exact hU (isPlaceholder_mangle_inv hT hcon).1

theorem eraseNthOfType_length (typ : List Char) : ∀ (k : Nat) (ss : List Section),
    k < countGo ss typ → (eraseNthOfType typ k ss).length + 1 = ss.length := by
  intro k ss
  induction ss generalizing k with
  | nil => intro h; simp [countGo] at h
  | cons sec rest ih =>
    intro h
    by_cases ht : sec.Typ = typ
    · by_cases hk : k = 0
      · subst hk
        simp [eraseNthOfType, ht]
      · simp only [eraseNthOfType, if_pos ht, if_neg hk, List.length_cons]
        rw [ih (k - 1) (by simp [countGo, ht] at h; omega)]
    · simp only [eraseNthOfType, if_neg ht, List.length_cons]
      rw [ih k (by simpa [countGo, ht] using h)]

theorem delGo_placeholder (name T : List Char) (k : Nat)
    (hph : ∀ U, IsPlaceholderName name U = (U == T))
    (hidx : (unmangleSectionName name).2.1 = (k : Int)) :
    ∀ (ss : List Section) (cnt : List Char → Nat),
    (∀ sec ∈ ss, sec.Name ≠ name) → cnt T ≤ k →
    delGo name cnt ss = eraseNthOfType T (k - cnt T) ss := by
  intro ss
  induction ss with
  | nil => intro cnt _ _; rfl
  | cons sec rest ih =>
    intro cnt h hle
    by_cases ht : sec.Typ = T
    · have hp : IsPlaceholderName name sec.Typ = true := by
        rw [hph, ht]
        simp
      by_cases hk : k = cnt T
      · have hcond : (unmangleSectionName name).2.1 = (cnt sec.Typ : Int) := by
          rw [hidx, ht, hk]
        have hz : k - cnt T = 0 := by omega
        have hd : delGo name cnt (sec :: rest) = rest := by
          simp only [delGo]
          rw [if_pos hp, if_pos hcond]
        rw [hd, hz]
        simp [eraseNthOfType, ht]
      · have hcond : ¬ (unmangleSectionName name).2.1 = (cnt sec.Typ : Int) := by
          rw [hidx, ht]
          intro hcon
          exact hk (by exact_mod_cast hcon)
        have hrec := ih (fun t => if t = sec.Typ then cnt t + 1 else cnt t)
          (fun s2 hs => h s2 (by simp [hs])) (by simp [ht]; omega)
        simp only at hrec
        have harr : (if T = sec.Typ then cnt T + 1 else cnt T) = cnt T + 1 := by
          simp [ht]
        rw [harr] at hrec
        have hd : delGo name cnt (sec :: rest) =
            sec :: delGo name (fun t => if t = sec.Typ then cnt t + 1 else cnt t) rest := by
          simp only [delGo]
          rw [if_pos hp, if_neg hcond, if_neg (h sec (by simp))]
        rw [hd, hrec]
        have hkz : ¬ (k - cnt T = 0) := by omega
        simp only [eraseNthOfType, if_pos ht, if_neg hkz]
        have harr2 : k - (cnt T + 1) = k - cnt T - 1 := by omega
        rw [harr2]
    · have hp : IsPlaceholderName name sec.Typ = false := by
        rw [hph]
        simp [ht]
      have hrec := ih cnt (fun s2 hs => h s2 (by simp [hs])) hle
      have hd : delGo name cnt (sec :: rest) = sec :: delGo name cnt rest := by
        simp only [delGo]
        rw [if_neg (by simp [hp]), if_neg (h sec (by simp))]
      rw [hd, hrec]
      simp [eraseNthOfType, ht]

/-- C6 counterexample: with one section of type `t` (`count = 1`, `i = -1`),
the claim says `Del "@t[-1]"` removes the section `Del "@t[0]"` removes; in
fact `Del "@t[-1]"` is a no-op (the placeholder pattern only accepts digits,
so the selector is treated as a literal name) while `Del "@t[0]"` removes
the section. -/
theorem claim_C6_counterexample :
    Config.Del cX6 (strL "@t[-1]") = cX6 ∧
    (Config.Del cX6 (strL "@t[0]")).Sections = [] := by
  constructor
  · rfl
  · rfl

/-- C6 (amended): `Config.Del` does not accept negative positional indices:
the placeholder pattern requires a digits-only index, so for
`-count T ≤ i < 0` the selector `"@T[i]"` is matched only as a literal
section name, and when no section bears that literal name the deletion is a
no-op (whereas `Del "@T[i+count]"` would remove a section).  The section
types are restricted to regex-safe ones, the domain on which the modelled
placeholder match is exactly Go's compiled-pattern match and on which
`MustCompile` cannot panic. -/
theorem claim_C6_del_negative_noop (c : Config) (T : List Char) (i : Int)
    (hT : validTypeB T = true)
    (_htypes : ∀ sec ∈ c.Sections, regexSafe sec.Typ = true)
    (hge : -(c.count T : Int) ≤ i) (hlt : i < 0)
    (hnames : ∀ sec ∈ c.Sections, sec.Name ≠ Num2PlaceholderSection T i) :
    c.Del (Num2PlaceholderSection T i) = c := by
  obtain ⟨cn, csecs⟩ := c
  simp only [Config.Del]
  rw [delGo_noop _ csecs
    (fun sec hs => ⟨hnames sec hs, isPlaceholder_mangle_neg hT hlt sec.Typ⟩) _]

/-- C6 witness: deleting `"@v[-2]"` from a two-section config of type `v`
leaves it unchanged. -/
theorem claim_C6_witness : Config.Del cW6 (strL "@v[-2]") = cW6 := by
  have h := claim_C6_del_negative_noop cW6 (strL "v") (-2) (by decide) (by decide)
    (by decide) (by decide) (by decide)
  have he : Num2PlaceholderSection (strL "v") (-2) = strL "@v[-2]" := by decide
  rw [← he]
  exact h

/-- C8 counterexample: the deletion loop breaks on a literal name match
before the positional counter reaches the second `t`-section, so
`Del "@t[1]"` removes the `u`-section named `"@t[1]"` instead of the
second-declared section of type `t`, and the other sections are not all
left in place as the claim requires. -/
theorem claim_C8_counterexample :
    (Config.Del cX8 (strL "@t[1]")).Sections =
      [⟨2, [], strL "t", []⟩, ⟨3, [], strL "t", []⟩] ∧
    (Config.Del cX8 (strL "@t[1]")).Sections ≠
      [⟨1, strL "@t[1]", strL "u", []⟩, ⟨2, [], strL "t", []⟩] := by
  constructor
  · rfl
  · decide

/-- C8 (amended): provided every stored section type is free of regex
metacharacters (so each per-section pattern `^@<Type>\[(\d+)\]$` compiles
and matches literally, the domain on which the model is exact) and no
section bears the literal name `"@T[1]"`, deleting via `"@T[1]"` from a
config with at least two sections of type `T` removes exactly the
second-declared section of type `T`, leaving every other section present,
unmodified and in order, and shrinks the section list by exactly one. -/
theorem claim_C8_del_second (c : Config) (T : List Char)
    (hT : validTypeB T = true) (hcnt : 2 ≤ c.count T)
    (_htypes : ∀ sec ∈ c.Sections, regexSafe sec.Typ = true)
    (hnames : ∀ sec ∈ c.Sections, sec.Name ≠ Num2PlaceholderSection T 1) :
    c.Del (Num2PlaceholderSection T 1) =
      { c with Sections := eraseNthOfType T 1 c.Sections } ∧
    (eraseNthOfType T 1 c.Sections).length + 1 = c.Sections.length := by
  have h1lo : -two63 ≤ (1 : Int) := by have := two63_pos; omega
  have h1hi : (1 : Int) < two63 := by norm_num [two63]
  have hidx : (unmangleSectionName (Num2PlaceholderSection T 1)).2.1 = ((1 : Nat) : Int) := by
    rw [unmangle_mangle hT h1lo h1hi]
    simp
  constructor
  · simp only [Config.Del]
    rw [delGo_placeholder (Num2PlaceholderSection T 1) T 1
      (isPlaceholder_mangle_iff hT (by omega)) hidx c.Sections (fun _ => 0) hnames
      (Nat.zero_le 1)]
  · exact eraseNthOfType_length T 1 c.Sections (by have := hcnt; simp [Config.count] at this; omega)

/-- C8 witness: deleting `"@r[1]"` removes exactly the second `r`-section. -/
theorem claim_C8_witness :
    Config.Del cW8 (Num2PlaceholderSection (strL "r") 1) =
      { cW8 with Sections := eraseNthOfType (strL "r") 1 cW8.Sections } ∧
    (eraseNthOfType (strL "r") 1 cW8.Sections).length + 1 = cW8.Sections.length :=
  claim_C8_del_second cW8 (strL "r") (by decide) (by decide) (by decide) (by decide)

theorem renderOption_eq {o : UOption} (h : o.Typ = OptionType.TypeOption → o.Values ≠ []) :
    renderOption o = some (specOptionLines o) := by
  match ht : o.Typ with
  | .TypeOption =>
    cases hv : o.Values with
    | nil => exact absurd hv (h ht)
    | cons v rest =>
      simp [renderOption, specOptionLines, ht, hv]
  | .TypeList =>
    simp [renderOption, specOptionLines, ht]

theorem renderOptions_eq {opts : List UOption}
    (h : ∀ o ∈ opts, o.Typ = OptionType.TypeOption → o.Values ≠ []) :
    renderOptions opts = some ((opts.map specOptionLines).flatten) := by
  induction opts with
  | nil => rfl
  | cons o rest ih =>
    simp only [renderOptions, renderOption_eq (h o (by simp)),
      ih (fun o2 ho => h o2 (by simp [ho]))]
    simp

theorem renderSection_eq {sec : Section}
    (h : ∀ o ∈ sec.Options, o.Typ = OptionType.TypeOption → o.Values ≠ []) :
    renderSection sec = some (specBlock sec) := by
  simp only [renderSection, renderOptions_eq h, Option.map_some']
  rw [specBlock]

theorem renderSections_eq {ss : List Section}
    (h : ∀ sec ∈ ss, ∀ o ∈ sec.Options, o.Typ = OptionType.TypeOption → o.Values ≠ []) :
    renderSections ss = some ((ss.map specBlock).flatten) := by
  induction ss with
  | nil => rfl
  | cons sec rest ih =>
    simp only [renderSections, renderSection_eq (h sec (by simp)),
      ih (fun s2 hs => h s2 (by simp [hs]))]
    simp

/-- C9 counterexample: the claim quantifies over every `Config`, but on a
config holding a `TypeOption` option with no values `WriteTo` panics
reading `Values[0]` (modelled as `none`) and renders nothing at all. -/
theorem claim_C9_counterexample : Config.WriteTo cX9 = none := rfl

/-- C9 (amended): for every config satisfying the documented data-model
invariant (every `TypeOption` option carries at least one value — `WriteTo`
reads `Values[0]` and panics otherwise) and whose section types are free of
regex metacharacters (so the per-section placeholder pattern compiles and
matches literally, the domain on which the modelled name check is exactly
Go's), the rendered text is exactly the claim's description: per section, a
preceding blank line, a `config <type>` header that re-emits the stored
name only when it is non-empty and not a recognized placeholder pattern for
the type, one `option` line from the first value per `TypeOption`, one
`list` line per value per `TypeList`, and a trailing blank line. -/
theorem claim_C9_writeTo_renders (c : Config)
    (_htypes : ∀ sec ∈ c.Sections, regexSafe sec.Typ = true)
    (hwf : ∀ sec ∈ c.Sections, ∀ o ∈ sec.Options,
      o.Typ = OptionType.TypeOption → o.Values ≠ []) :
    c.WriteTo = some (specRender c) := by
  simp only [Config.WriteTo, renderSections_eq hwf, Option.map_some']
  rw [specRender]

/-- C9 witness: the rendering of the concrete two-section config. -/
theorem claim_C9_witness : Config.WriteTo cW9 = some (specRender cW9) :=
  claim_C9_writeTo_renders cW9 (by decide) (by decide)
